import Mathlib

/-!
Verification of the VAH (vulnerable-q-gram hardening) core from
`src/hardening.py` and `src/main.py`, against its design document.

Embedding conventions:
* Python `set` objects of q-grams are modelled as `List String` carrying an
  explicit (insertion) iteration order; all set operations (`add`, `update`,
  intersection, difference) deduplicate exactly as Python sets do.
* Python `dict` objects are modelled as association lists `List (key × value)`
  preserving insertion order, with first-occurrence lookup/update/delete.
* Python `float` similarity scores are modelled as exact rationals
  (`Rat.divInt`); all comparisons performed by the program are between such
  exact values.
* The global Mersenne-Twister generator is modelled as an explicit stream of
  naturals threaded through the computation; `random.seed(s)` produces a
  stream that is a function of `s` alone.
* A Python exception (`KeyError`, `IndexError`, `ZeroDivisionError`, a failing
  `assert`, an unbounded padding loop) is modelled by returning `none`.
-/

namespace Vah

/-- Deterministic random source: a stream of naturals and a position. -/
structure RNG where
  stream : Nat → Nat
  pos : Nat

/-- Draw the next raw value from the stream. -/
def RNG.next (g : RNG) : Nat × RNG :=
  (g.stream g.pos, ⟨g.stream, g.pos + 1⟩)

/-- Modelled from the spec: `random.seed(seed)` re-initialises the global
generator deterministically from the secret seed alone.  The Mersenne Twister
itself is library code outside this repository, so its stream is abstracted by
an explicit mixing function of the seed; every property proved below holds for
an arbitrary stream, and determinism needs only that the stream is a function
of the seed. -/
def seededRNG (seed : Nat) : RNG :=
  ⟨fun i => (seed * 1103515245 + i * 12345 + 12345) % 2147483648, 0⟩

/-- Python `random.choice(l)` / `l[random.randint(0, len(l) - 1)]`: pick an
element of `l` driven by the stream; raises (`none`) on an empty list. -/
def RNG.pick {α : Type} [Inhabited α] (g : RNG) (l : List α) : Option (α × RNG) :=
  if l.isEmpty then none
  else
    let (x, g') := g.next
    some (l.getD (x % l.length) default, g')

/-- Python set element insertion `s.add(x)`: a no-op when already present. -/
def sadd (l : List String) (x : String) : List String :=
  if x ∈ l then l else l ++ [x]

/-- Python set union update `s.update(t)`. -/
def supdate (l t : List String) : List String :=
  t.foldl sadd l

/-- First-occurrence lookup in an association list (Python `d[k]`). -/
def alLookup {β : Type} (m : List (String × β)) (k : String) : Option β :=
  match m with
  | [] => none
  | (k1, v) :: rest => if k1 = k then some v else alLookup rest k

/-- Python `d[k] = v`: replace the first binding in place, else append. -/
def alUpdate {β : Type} (m : List (String × β)) (k : String) (v : β) :
    List (String × β) :=
  match m with
  | [] => [(k, v)]
  | (k1, v1) :: rest =>
    if k1 = k then (k, v) :: rest else (k1, v1) :: alUpdate rest k v

/-- Python `del d[k]`: drop the first binding of `k`. -/
def alErase {β : Type} (m : List (String × β)) (k : String) : List (String × β) :=
  match m with
  | [] => []
  | (k1, v1) :: rest => if k1 = k then rest else (k1, v1) :: alErase rest k

/-- Total count mass of a frequency ledger. -/
def alSum (m : List (String × Int)) : Int :=
  (m.map Prod.snd).sum

/-- Embedding of `q_gram_dice_sim` (src/hardening.py, lines 5-24).
`2.0 * |A ∩ B| / (|A| + |B|)` as an exact rational; a zero denominator
(`ZeroDivisionError`, both sets empty) yields `none`.  The assertion
`0 <= sim <= 1.0` is proved below (theorem `C7_dice_sim_contract`) rather
than re-checked at run time. -/
def q_gram_dice_sim (q_gram_set1 q_gram_set2 : List String) : Option ℚ :=
  if q_gram_set1.length + q_gram_set2.length = 0 then none
  else some (Rat.divInt (2 * (q_gram_set1.filter (fun x => x ∈ q_gram_set2)).length)
      (q_gram_set1.length + q_gram_set2.length))

/-- Python `random.sample(range(n), k)` selection loop: repeatedly pick a
remaining element of `avail`, without replacement.  Returns `none` when `k`
exceeds the number of available elements (`ValueError`). -/
def sampleAux (g : RNG) (avail : List Nat) : Nat → Option (List Nat × RNG)
  | 0 => some ([], g)
  | k + 1 =>
    if avail.isEmpty then none
    else
      let (x, g1) := g.next
      let j := x % avail.length
      match sampleAux g1 (avail.eraseIdx j) k with
      | none => none
      | some (rest, g2) => some (avail.getD j 0 :: rest, g2)

/-- Python `random.sample(range(0, n), k)`. -/
def RNG.sample (g : RNG) (n k : Nat) : Option (List Nat × RNG) :=
  sampleAux g (List.range n) k

/-- Python `random.shuffle` modelled as a stream-driven selection permutation. -/
def shuffleAux : Nat → RNG → List Nat → List Nat × RNG
  | 0, g, _ => ([], g)
  | fuel + 1, g, avail =>
    if avail.isEmpty then ([], g)
    else
      let (x, g1) := g.next
      let j := x % avail.length
      let (rest, g2) := shuffleAux fuel g1 (avail.eraseIdx j)
      (avail.getD j 0 :: rest, g2)

/-- Python `random.shuffle(l)`. -/
def RNG.shuffle (g : RNG) (l : List Nat) : List Nat × RNG :=
  shuffleAux l.length g l

/-- The VAH hardener state (src/hardening.py, class `VAH`, lines 27-33).
`vuln_q_grams` and `non_vuln_q_grams` carry the iteration order of the Python
collections. -/
structure VAH where
  secret_seed : Nat
  vuln_q_grams : List String
  non_vuln_q_grams : List String
  l_r : Nat

/-- The contribution of one public record to the co-occurrence pools
(src/hardening.py, lines 54-55): for each vulnerable q-gram of the record,
add the remaining q-grams of the record to that pool by set union. -/
def addCo (qs : List String) : List String → List (String × List String) →
    List (String × List String)
  | [], pools => pools
  | q_v :: rest, pools =>
    addCo qs rest
      (alUpdate pools q_v
        (supdate ((alLookup pools q_v).getD []) (qs.filter (fun x => x ≠ q_v))))

/-- The public-record loop building the pools (src/hardening.py, lines 51-55). -/
def coPoolsGo (vuln : List String) : List (String × List String) →
    List (String × List String) → List (String × List String)
  | [], pools => pools
  | p :: rest, pools =>
    coPoolsGo vuln rest (addCo p.2 (p.2.filter (fun q => q ∈ vuln)) pools)

/-- Co-occurrence pools (src/hardening.py, lines 50-55): for each vulnerable
q-gram, the union over public records containing it of the q-gram set of the
record minus that q-gram. -/
def coPools (vuln : List String) (pub : List (String × List String)) :
    List (String × List String) :=
  coPoolsGo vuln pub (vuln.map (fun q => (q, ([] : List String))))

/-- Consecutive slices `l[i : i+k]` for `i = 0, k, 2k, ...`
(src/hardening.py, line 67-68); the caller guarantees `k ≠ 0`. -/
def chunksGo (k : Nat) : Nat → List String → List (List String)
  | 0, _ => []
  | fuel + 1, l => if l.isEmpty then [] else l.take k :: chunksGo k fuel (l.drop k)

/-- All consecutive chunks of size `k` of `l` (last one possibly shorter). -/
def chunks (k : Nat) (l : List String) : List (List String) :=
  chunksGo k l.length l

/-- The padding loop (src/hardening.py, lines 71-72 and 76-77): grow `qs_r`
by stream-driven draws from `src` until it reaches size `l_r`; set union
absorbs duplicates.  `fuel` bounds the possibly unbounded loop: exhausting it
(or drawing from an empty source, Python `ValueError`) yields `none`. -/
def padFrom (src : List String) (l_r : Nat) : Nat → List String → RNG →
    Option (List String × RNG)
  | 0, qs_r, g => if qs_r.length < l_r then none else some (qs_r, g)
  | fuel + 1, qs_r, g =>
    if qs_r.length < l_r then
      match g.pick src with
      | none => none
      | some (x, g1) => padFrom src l_r fuel (sadd qs_r x) g1
    else some (qs_r, g)

/-- The per-pool reference-set loop (src/hardening.py, lines 67-81):
`cnt` is `qv_qs_r_count`, the number of reference sets already produced for
this vulnerable q-gram.  An undersized chunk is padded from the full pool when
`cnt > 0` and from the non-vulnerable fallback pool when `cnt = 0`.  The size
assertion of line 79 is proved below (C6) rather than re-checked. -/
def genChunksGo (pool nv : List String) (l_r fuel : Nat) :
    List (List String) → Nat → RNG → Option (List (List String) × RNG)
  | [], _, g => some ([], g)
  | c :: cs, cnt, g =>
    let step : Option (List String × RNG) :=
      if c.length < l_r then
        if cnt > 0 then padFrom pool l_r fuel c g
        else padFrom nv l_r fuel c g
      else some (c, g)
    match step with
    | none => none
    | some (r, g1) =>
      match genChunksGo pool nv l_r fuel cs (cnt + 1) g1 with
      | none => none
      | some (rs, g2) => some (r :: rs, g2)

/-- Reference sets for one co-occurrence pool. -/
def genForPool (pool nv : List String) (l_r fuel : Nat) (g : RNG) :
    Option (List (List String) × RNG) :=
  genChunksGo pool nv l_r fuel (chunks l_r pool) 0 g

/-- Reference sets for every vulnerable q-gram, in pool order
(src/hardening.py, lines 61-82). -/
def genRefSets (pools : List (String × List String)) (nv : List String)
    (l_r fuel : Nat) (g : RNG) :
    Option (List (String × List (List String)) × RNG) :=
  match pools with
  | [] => some ([], g)
  | (q_v, pool) :: rest =>
    match genForPool pool nv l_r fuel g with
    | none => none
    | some (rs, g1) =>
      match genRefSets rest nv l_r fuel g1 with
      | none => none
      | some (out, g2) => some ((q_v, rs) :: out, g2)

/-- Total number of generated reference sets (`total_qs_r_count`). -/
def totalRefCount (refsets : List (String × List (List String))) : Nat :=
  (refsets.map (fun p => p.2.length)).sum

/-- Assign one popped index (from the end of `idxs`, Python `list.pop()`) to
each reference set of one vulnerable q-gram (src/hardening.py, lines 95-96). -/
def popAssign (rs : List (List String)) (idxs : List Nat) :
    Option (List (Nat × List String) × List Nat) :=
  match rs with
  | [] => some ([], idxs)
  | r :: rest =>
    match idxs.getLast? with
    | none => none
    | some i =>
      match popAssign rest idxs.dropLast with
      | none => none
      | some (out, idxs1) => some ((i, r) :: out, idxs1)

/-- Assign popped indices across all vulnerable q-grams
(src/hardening.py, lines 93-96). -/
def assignAll (refsets : List (String × List (List String))) (idxs : List Nat) :
    Option (List (String × List (Nat × List String)) × List Nat) :=
  match refsets with
  | [] => some ([], idxs)
  | (q_v, rs) :: rest =>
    match popAssign rs idxs with
    | none => none
    | some (d, idxs1) =>
      match assignAll rest idxs1 with
      | none => none
      | some (out, idxs2) => some ((q_v, d) :: out, idxs2)

/-- Embedding of `VAH.generate_reference_sets` (src/hardening.py,
lines 36-103).  `fuel` bounds the padding loops; `l_r = 0` reproduces the
`range` step error.  Returns the indexed reference-set table. -/
def VAH.generate_reference_sets (v : VAH) (pub : List (String × List String))
    (fuel : Nat) : Option (List (String × List (Nat × List String))) :=
  if v.l_r = 0 then none
  else
    let g := seededRNG v.secret_seed
    let pools := coPools v.vuln_q_grams pub
    match genRefSets pools v.non_vuln_q_grams v.l_r fuel g with
    | none => none
    | some (refsets, g1) =>
      let T := totalRefCount refsets
      match g1.sample (T * v.vuln_q_grams.length) T with
      | none => none
      | some (idxs0, g2) =>
        let (idxs, _) := g2.shuffle idxs0
        match assignAll refsets idxs with
        | none => none
        | some (table, _) => some table

/-- All integer indices appearing anywhere in an indexed reference-set table. -/
def tableIndices (table : List (String × List (Nat × List String))) : List Nat :=
  (table.map (fun p => p.2.map Prod.fst)).flatten

/-- Total number of (index, reference set) pairs in the table. -/
def tablePairCount (table : List (String × List (Nat × List String))) : Nat :=
  (table.map (fun p => p.2.length)).sum

/-- The per-candidate similarity scores (src/hardening.py, lines 129-131):
Dice similarity of the current q-gram set of the record against every reference set
registered under the vulnerable q-gram, in table order. -/
def simScoresFor (qs : List String) (refs : List (Nat × List String)) :
    Option (List (Nat × ℚ)) :=
  match refs with
  | [] => some []
  | (ref_id, ref_set) :: rest =>
    match q_gram_dice_sim qs ref_set, simScoresFor qs rest with
    | some s, some l => some ((ref_id, s) :: l)
    | _, _ => none

/-- Candidate indices achieving the maximum score (src/hardening.py,
lines 133-142): stable descending sort by score, then the initial run of
entries tied with the top score. -/
def maxKeysOf (sim_scores : List (Nat × ℚ)) : List Nat :=
  let sorted_items :=
    List.insertionSort (fun a b : Nat × ℚ => b.2 ≤ a.2) sim_scores
  match sorted_items.head? with
  | none => []
  | some top => (sorted_items.takeWhile (fun p => p.2 = top.2)).map Prod.fst

/-- One substitution step of the Hardener (src/hardening.py, lines 128-164):
score, select a qualifier (seeded tie-break), substitute the qualified token,
and update the frequency ledger.  `none` models `KeyError` on a missing table
entry or record element, `IndexError` on an empty candidate list, and the
failing ledger assertion of line 157. -/
def hardenQ (table : List (String × List (Nat × List String))) (q_v : String)
    (qs : List String) (fdist : List (String × Int)) (g : RNG) :
    Option (List String × List (String × Int) × RNG) :=
  match alLookup table q_v with
  | none => none
  | some refs =>
    match simScoresFor qs refs with
    | none => none
    | some sim_scores =>
      if sim_scores.isEmpty then none
      else
        match g.pick (maxKeysOf sim_scores) with
        | none => none
        | some (qualifier, g1) =>
          let replacement := q_v ++ Nat.repr qualifier
          if q_v ∈ qs then
            let qs1 := sadd (qs.erase q_v) replacement
            match alLookup fdist q_v with
            | none => none
            | some c =>
              let f1 := if c - 1 = 0 then alErase fdist q_v
                        else alUpdate fdist q_v (c - 1)
              let f2 := match alLookup f1 replacement with
                        | none => alUpdate f1 replacement 1
                        | some c2 => alUpdate f1 replacement (c2 + 1)
              some (qs1, f2, g1)
          else none

/-- Process every vulnerable q-gram present in one record, against the
current (already partially substituted) q-gram set of the record. -/
def hardenRecord (table : List (String × List (Nat × List String))) :
    List String → List String → List (String × Int) → RNG →
    Option (List String × List (String × Int) × RNG)
  | [], qs, fdist, g => some (qs, fdist, g)
  | q_v :: rest, qs, fdist, g =>
    match hardenQ table q_v qs fdist g with
    | none => none
    | some (qs1, f1, g1) => hardenRecord table rest qs1 f1 g1

/-- The record loop of the Hardener (src/hardening.py, lines 124-167). -/
def hardenAll (vuln : List String)
    (table : List (String × List (Nat × List String))) :
    List (String × List String) → List (String × Int) → RNG →
    Option (List (String × List String) × List (String × Int) × RNG)
  | [], fdist, g => some ([], fdist, g)
  | (rec_id, qs) :: rest, fdist, g =>
    let vuln_qs := qs.filter (fun q => q ∈ vuln)
    if vuln_qs.isEmpty then
      match hardenAll vuln table rest fdist g with
      | none => none
      | some (out, f1, g1) => some ((rec_id, qs) :: out, f1, g1)
    else
      match hardenRecord table vuln_qs qs fdist g with
      | none => none
      | some (qs1, f1, g1) =>
        match hardenAll vuln table rest f1 g1 with
        | none => none
        | some (out, f2, g2) => some ((rec_id, qs1) :: out, f2, g2)

/-- Embedding of `VAH.harden_with_vah_ref_sets` (src/hardening.py,
lines 106-174).  The pre-built indexed reference-set table is passed
explicitly (`self.indexed_ref_sets`); the generator is reseeded from the
secret seed at entry (line 118). -/
def VAH.harden_with_vah_ref_sets (v : VAH)
    (table : List (String × List (Nat × List String)))
    (data_dict : List (String × List String)) (q_gram_f_dist : List (String × Int)) :
    Option (List (String × List String) × List (String × Int)) :=
  match hardenAll v.vuln_q_grams table data_dict q_gram_f_dist
      (seededRNG v.secret_seed) with
  | none => none
  | some (out, f, _) => some (out, f)

/-- Embedding of `get_q_grams_to_be_hardened` (src/main.py, lines 75-96):
ascending stable sort by frequency; the vulnerable list is the slice
`[-vuln_q_gram_count:]` (the whole list when the count is `0`, as in Python),
the non-vulnerable list is the slice `[vuln_q_gram_count:]`. -/
def get_q_grams_to_be_hardened (q_gram_dict : List (String × Int))
    (vuln_q_gram_count : Nat) : List String × List String :=
  let sorted_q_grams :=
    List.insertionSort (fun a b : String × Int => a.2 ≤ b.2) q_gram_dict
  let vuln_q_grams :=
    (if vuln_q_gram_count = 0 then sorted_q_grams
     else sorted_q_grams.drop (sorted_q_grams.length - vuln_q_gram_count)).map Prod.fst
  let non_vuln_q_grams := (sorted_q_grams.drop vuln_q_gram_count).map Prod.fst
  (vuln_q_grams, non_vuln_q_grams)

/-! ### Basic facts about the set model -/

theorem sadd_nodup {l : List String} (h : l.Nodup) (x : String) :
    (sadd l x).Nodup := by
  unfold sadd
  split
  · exact h
  · next hx => simpa [List.nodup_append] using ⟨h, fun hmem => hx hmem⟩

theorem mem_sadd_self (l : List String) (x : String) : x ∈ sadd l x := by
  unfold sadd
  split
  · assumption
  · simp

theorem mem_sadd_of_mem {l : List String} {y : String} (h : y ∈ l) (x : String) :
    y ∈ sadd l x := by
  unfold sadd
  split
  · exact h
  · simp [h]

theorem mem_sadd {l : List String} {x y : String} (h : y ∈ sadd l x) :
    y ∈ l ∨ y = x := by
  unfold sadd at h
  split at h
  · exact Or.inl h
  · simpa using h

theorem sadd_length_le (l : List String) (x : String) :
    (sadd l x).length ≤ l.length + 1 := by
  unfold sadd
  split
  · omega
  · simp

theorem supdate_nodup {l : List String} (h : l.Nodup) (t : List String) :
    (supdate l t).Nodup := by
  induction t generalizing l with
  | nil => simpa [supdate]
  | cons a t ih =>
    simpa [supdate, List.foldl_cons] using ih (sadd_nodup h a)

theorem mem_supdate_of_mem {l : List String} {y : String} (h : y ∈ l)
    (t : List String) : y ∈ supdate l t := by
  induction t generalizing l with
  | nil => simpa [supdate]
  | cons a t ih =>
    simpa [supdate, List.foldl_cons] using ih (mem_sadd_of_mem h a)

theorem mem_supdate {l t : List String} {y : String} (h : y ∈ supdate l t) :
    y ∈ l ∨ y ∈ t := by
  induction t generalizing l with
  | nil => exact Or.inl (by simpa [supdate] using h)
  | cons a t ih =>
    have := ih (by simpa [supdate, List.foldl_cons] using h)
    rcases this with h1 | h1
    · rcases mem_sadd h1 with h2 | h2
      · exact Or.inl h2
      · exact Or.inr (by simp [h2])
    · exact Or.inr (by simp [h1])

/-! ### Chunking lemmas -/

theorem chunksGo_mem {k : Nat} (hk : k ≠ 0) :
    ∀ (fuel : Nat) (l : List String), ∀ c ∈ chunksGo k fuel l,
      c.length ≤ k ∧ c.Sublist l ∧ c ≠ [] := by
  intro fuel
  induction fuel with
  | zero => intro l c hc; simp [chunksGo] at hc
  | succ fuel ih =>
    intro l c hc
    unfold chunksGo at hc
    split at hc
    · simp at hc
    · next hl =>
      rcases List.mem_cons.mp hc with h | h
      · subst h
        refine ⟨by simpa using List.length_take_le k l, List.take_sublist k l, ?_⟩
        intro hnil
        rcases List.take_eq_nil_iff.mp hnil with h | h
        · exact hk h
        · rw [h] at hl
          simp at hl
      · obtain ⟨h1, h2, h3⟩ := ih (l.drop k) c h
        exact ⟨h1, h2.trans (List.drop_sublist k l), h3⟩

theorem chunks_mem {k : Nat} (hk : k ≠ 0) (l : List String) :
    ∀ c ∈ chunks k l, c.length ≤ k ∧ c.Sublist l ∧ c ≠ [] :=
  chunksGo_mem hk l.length l

theorem chunks_ne_nil {k : Nat} (hk : k ≠ 0) {l : List String} (hl : l ≠ []) :
    chunks k l ≠ [] := by
  unfold chunks chunksGo
  have : 0 < l.length := List.length_pos.mpr hl
  match h : l.length with
  | 0 => omega
  | Nat.succ m =>
    simp only
    split
    · next he => exact absurd (by simpa [List.isEmpty_iff] using he) hl
    · simp

theorem chunksGo_dropLast_full {k : Nat} (hk : k ≠ 0) :
    ∀ (fuel : Nat) (l : List String), l.length ≤ fuel →
      ∀ c ∈ (chunksGo k fuel l).dropLast, c.length = k := by
  intro fuel
  induction fuel with
  | zero => intro l hf c hc; simp [chunksGo] at hc
  | succ fuel ih =>
    intro l hf c hc
    unfold chunksGo at hc
    split at hc
    · simp at hc
    · next hl =>
      have hlen : 0 < l.length := by
        cases l with
        | nil => simp at hl
        | cons a t => simp
      rcases heq : chunksGo k fuel (l.drop k) with _ | ⟨c2, cs2⟩
      · rw [heq] at hc
        simp at hc
      · rw [heq, List.dropLast_cons_of_ne_nil (by simp)] at hc
        rcases List.mem_cons.mp hc with h | h
        · subst h
          have hne : c2 :: cs2 ≠ [] := by simp
          rw [← heq] at hne
          have hdropne : l.drop k ≠ [] := by
            intro hzero
            rw [hzero] at hne
            cases fuel with
            | zero => simp [chunksGo] at hne
            | succ f => simp [chunksGo] at hne
          have : k < l.length := by
            by_contra hge
            exact hdropne (List.drop_eq_nil_of_le (by omega))
          simp [List.length_take]
          omega
        · rw [← heq] at h
          exact ih (l.drop k) (by simp; omega) c h

theorem chunks_dropLast_full {k : Nat} (hk : k ≠ 0) (l : List String) :
    ∀ c ∈ (chunks k l).dropLast, c.length = k :=
  chunksGo_dropLast_full hk l.length l le_rfl

/-! ### Padding lemmas -/

theorem padFrom_spec {src : List String} {l_r : Nat} :
    ∀ {fuel : Nat} {qs_r r : List String} {g g1 : RNG},
      padFrom src l_r fuel qs_r g = some (r, g1) → qs_r.length ≤ l_r →
      qs_r.Nodup → r.length = l_r ∧ r.Nodup := by
  intro fuel
  induction fuel with
  | zero =>
    intro qs_r r g g1 h hle hnd
    unfold padFrom at h
    split at h
    · simp at h
    · next hge =>
      simp only [Option.some.injEq, Prod.mk.injEq] at h
      obtain ⟨h1, h2⟩ := h
      subst h1
      exact ⟨by omega, hnd⟩
  | succ fuel ih =>
    intro qs_r r g g1 h hle hnd
    unfold padFrom at h
    split at h
    · next hlt =>
      rcases hp : RNG.pick g src with _ | ⟨x, g2⟩
      · rw [hp] at h; simp at h
      · rw [hp] at h
        simp only at h
        have hlen2 : (sadd qs_r x).length ≤ l_r := by
          have := sadd_length_le qs_r x
          omega
        exact ih h hlen2 (sadd_nodup hnd x)
    · next hge =>
      simp only [Option.some.injEq, Prod.mk.injEq] at h
      obtain ⟨h1, h2⟩ := h
      subst h1
      exact ⟨by omega, hnd⟩

/-! ### Reference-set generation lemmas -/

theorem genChunksGo_spec {pool nv : List String} {l_r fuel : Nat} :
    ∀ {cs : List (List String)} {cnt : Nat} {g g1 : RNG} {rs : List (List String)},
      genChunksGo pool nv l_r fuel cs cnt g = some (rs, g1) →
      (∀ c ∈ cs, c.length ≤ l_r ∧ c.Nodup) →
      rs.length = cs.length ∧ ∀ r ∈ rs, r.length = l_r ∧ r.Nodup := by
  intro cs
  induction cs with
  | nil =>
    intro cnt g g1 rs h hcs
    unfold genChunksGo at h
    simp only [Option.some.injEq, Prod.mk.injEq] at h
    obtain ⟨h1, h2⟩ := h
    subst h1
    simp
  | cons c cs ih =>
    intro cnt g g1 rs h hcs
    unfold genChunksGo at h
    rcases hstep : (if c.length < l_r then
        if cnt > 0 then padFrom pool l_r fuel c g
        else padFrom nv l_r fuel c g
      else some (c, g)) with _ | ⟨r, g2⟩
    · rw [hstep] at h; simp at h
    · rw [hstep] at h
      simp only at h
      rcases hrec : genChunksGo pool nv l_r fuel cs (cnt + 1) g2 with _ | ⟨rs2, g3⟩
      · rw [hrec] at h; simp at h
      · rw [hrec] at h
        simp only [Option.some.injEq, Prod.mk.injEq] at h
        obtain ⟨h1, h2⟩ := h
        subst h1
        obtain ⟨hc1, hc2⟩ := hcs c (by simp)
        have hr : r.length = l_r ∧ r.Nodup := by
          split at hstep
          · next hlt =>
            split at hstep
            · exact padFrom_spec hstep (by omega) hc2
            · exact padFrom_spec hstep (by omega) hc2
          · next hge =>
            simp only [Option.some.injEq, Prod.mk.injEq] at hstep
            obtain ⟨he1, he2⟩ := hstep
            subst he1
            exact ⟨by omega, hc2⟩
        obtain ⟨hl2, hall⟩ := ih hrec (fun c2 hc => hcs c2 (by simp [hc]))
        refine ⟨by simp [hl2], ?_⟩
        intro r2 hr2
        rcases List.mem_cons.mp hr2 with h | h
        · subst h; exact hr
        · exact hall r2 h

/-! ### Association list lemmas -/

theorem alLookup_update_self {β : Type} (m : List (String × β)) (k : String) (v : β) :
    alLookup (alUpdate m k v) k = some v := by
  induction m with
  | nil => simp [alLookup, alUpdate]
  | cons p rest ih =>
    obtain ⟨k1, v1⟩ := p
    by_cases h : k1 = k
    · simp [alLookup, alUpdate, h]
    · simp [alLookup, alUpdate, h, ih]

theorem alSum_update_of_lookup_some {m : List (String × Int)} {k : String} {c : Int}
    (h : alLookup m k = some c) (v : Int) :
    alSum (alUpdate m k v) = alSum m - c + v := by
  induction m with
  | nil => simp [alLookup] at h
  | cons p rest ih =>
    obtain ⟨k1, v1⟩ := p
    by_cases hk : k1 = k
    · simp [alLookup, hk] at h
      subst h
      simp [alUpdate, alSum, hk]
      ring
    · simp [alLookup, hk] at h
      have := ih h
      simp [alUpdate, alSum, hk] at this ⊢
      omega

theorem alSum_update_of_lookup_none {m : List (String × Int)} {k : String}
    (h : alLookup m k = none) (v : Int) :
    alSum (alUpdate m k v) = alSum m + v := by
  induction m with
  | nil => simp [alUpdate, alSum]
  | cons p rest ih =>
    obtain ⟨k1, v1⟩ := p
    by_cases hk : k1 = k
    · simp [alLookup, hk] at h
    · simp [alLookup, hk] at h
      have := ih h
      simp [alUpdate, alSum, hk] at this ⊢
      omega

theorem alSum_erase_of_lookup_some {m : List (String × Int)} {k : String} {c : Int}
    (h : alLookup m k = some c) :
    alSum (alErase m k) = alSum m - c := by
  induction m with
  | nil => simp [alLookup] at h
  | cons p rest ih =>
    obtain ⟨k1, v1⟩ := p
    by_cases hk : k1 = k
    · simp [alLookup, hk] at h
      subst h
      simp [alErase, alSum, hk]
    · simp [alLookup, hk] at h
      have := ih h
      simp [alErase, alSum, hk] at this ⊢
      omega

theorem alLookup_val_mem {β : Type} {m : List (String × β)} {k : String} {v : β}
    (h : alLookup m k = some v) : ∃ p ∈ m, p.2 = v := by
  induction m with
  | nil => simp [alLookup] at h
  | cons p rest ih =>
    obtain ⟨k1, v1⟩ := p
    by_cases hk : k1 = k
    · simp [alLookup, hk] at h
      exact ⟨(k, v), by simp [← h, hk]⟩
    · simp [alLookup, hk] at h
      obtain ⟨q, hq1, hq2⟩ := ih h
      exact ⟨q, by simp [hq1], hq2⟩

theorem alUpdate_forall_snd {β : Type} {m : List (String × β)} {P : β → Prop}
    (hm : ∀ p ∈ m, P p.2) {v : β} (hv : P v) (k : String) :
    ∀ p ∈ alUpdate m k v, P p.2 := by
  induction m with
  | nil =>
    intro p hp
    simp [alUpdate] at hp
    simp [hp, hv]
  | cons q rest ih =>
    obtain ⟨k1, v1⟩ := q
    intro p hp
    by_cases hk : k1 = k
    · simp [alUpdate, hk] at hp
      rcases hp with hp | hp
      · simp [hp, hv]
      · exact hm p (by simp [hp])
    · simp only [alUpdate, if_neg hk] at hp
      rcases List.mem_cons.mp hp with hp | hp
      · exact hm p (by simp [hp])
      · exact ih (fun q hq => hm q (by simp [hq])) p hp

theorem alUpdate_map_fst_of_mem {β : Type} {m : List (String × β)} {k : String}
    (hk : k ∈ m.map Prod.fst) (v : β) :
    (alUpdate m k v).map Prod.fst = m.map Prod.fst := by
  induction m with
  | nil => simp at hk
  | cons q rest ih =>
    obtain ⟨k1, v1⟩ := q
    by_cases h : k1 = k
    · simp [alUpdate, h]
    · have hk2 : k ∈ rest.map Prod.fst := by
        simp at hk
        rcases hk with hk | hk
        · exact absurd hk.symm h
        · simpa using hk
      simp [alUpdate, h, ih hk2]

/-! ### Co-occurrence pool invariants -/

theorem addCo_inv {vuln qs : List String} :
    ∀ (l : List String) (pools : List (String × List String)),
      (∀ q ∈ l, q ∈ vuln) →
      pools.map Prod.fst = vuln → (∀ p ∈ pools, (p.2 : List String).Nodup) →
      (addCo qs l pools).map Prod.fst = vuln ∧
        ∀ p ∈ addCo qs l pools, (p.2 : List String).Nodup := by
  intro l
  induction l with
  | nil => intro pools _ h1 h2; exact ⟨h1, h2⟩
  | cons q_v rest ih =>
    intro pools hl hkeys hnodup
    have hq_mem : q_v ∈ pools.map Prod.fst := by
      rw [hkeys]
      exact hl q_v (by simp)
    have hval : ((alLookup pools q_v).getD []).Nodup := by
      rcases hlk : alLookup pools q_v with _ | w
      · simp
      · obtain ⟨p, hp1, hp2⟩ := alLookup_val_mem hlk
        simpa [hp2] using hnodup p hp1
    unfold addCo
    exact ih _ (fun q hq => hl q (by simp [hq]))
      (by rw [alUpdate_map_fst_of_mem hq_mem]; exact hkeys)
      (alUpdate_forall_snd hnodup (supdate_nodup hval _) q_v)

theorem coPoolsGo_inv {vuln : List String} :
    ∀ (pub : List (String × List String)) (pools : List (String × List String)),
      pools.map Prod.fst = vuln → (∀ p ∈ pools, (p.2 : List String).Nodup) →
      (coPoolsGo vuln pub pools).map Prod.fst = vuln ∧
        ∀ p ∈ coPoolsGo vuln pub pools, (p.2 : List String).Nodup := by
  intro pub
  induction pub with
  | nil => intro pools h1 h2; exact ⟨h1, h2⟩
  | cons rec rest ih =>
    intro pools h1 h2
    unfold coPoolsGo
    obtain ⟨h3, h4⟩ := addCo_inv (rec.2.filter (fun q => q ∈ vuln)) pools
      (fun q hq => by simpa using (List.mem_filter.mp hq).2) h1 h2
    exact ih _ h3 h4

theorem coPools_inv (vuln : List String) (pub : List (String × List String)) :
    (coPools vuln pub).map Prod.fst = vuln ∧
    ∀ p ∈ coPools vuln pub, (p.2 : List String).Nodup := by
  unfold coPools
  apply coPoolsGo_inv
  · simp [Function.comp_def]
  · intro p hp
    simp at hp
    obtain ⟨q, hq1, hq2⟩ := hp
    simp [← hq2]

/-! ### Generation correspondence lemmas -/

theorem forall2_mem_right {α β : Type} {R : α → β → Prop} :
    ∀ {l1 : List α} {l2 : List β}, List.Forall₂ R l1 l2 → ∀ b ∈ l2, ∃ a ∈ l1, R a b := by
  intro l1 l2 h
  induction h with
  | nil => simp
  | cons hr _ ih =>
    intro b hb
    rcases List.mem_cons.mp hb with hb | hb
    · subst hb
      exact ⟨_, by simp, hr⟩
    · obtain ⟨a, ha1, ha2⟩ := ih b hb
      exact ⟨a, by simp [ha1], ha2⟩

theorem forall2_map_fst {β γ : Type} {R : (String × β) → (String × γ) → Prop}
    (hR : ∀ p q, R p q → q.1 = p.1) :
    ∀ {l1 : List (String × β)} {l2 : List (String × γ)}, List.Forall₂ R l1 l2 →
      l2.map Prod.fst = l1.map Prod.fst := by
  intro l1 l2 h
  induction h with
  | nil => simp
  | cons hr _ ih => simpa using ⟨hR _ _ hr, ih⟩

/-- The full per-pool correspondence established by reference-set generation. -/
def GenRel (l_r : Nat) (p : String × List String) (q : String × List (List String)) :
    Prop :=
  q.1 = p.1 ∧ q.2.length = (chunks l_r p.2).length ∧
    ∀ r ∈ q.2, r.length = l_r ∧ r.Nodup

theorem genRefSets_forall2 {nv : List String} {l_r fuel : Nat} (hl : l_r ≠ 0) :
    ∀ {pools : List (String × List String)} {g g1 : RNG}
      {refsets : List (String × List (List String))},
      genRefSets pools nv l_r fuel g = some (refsets, g1) →
      (∀ p ∈ pools, (p.2 : List String).Nodup) →
      List.Forall₂ (GenRel l_r) pools refsets := by
  intro pools
  induction pools with
  | nil =>
    intro g g1 refsets h hnd
    unfold genRefSets at h
    simp only [Option.some.injEq, Prod.mk.injEq] at h
    obtain ⟨h1, h2⟩ := h
    subst h1
    exact List.Forall₂.nil
  | cons p rest ih =>
    intro g g1 refsets h hnd
    obtain ⟨q_v, pool⟩ := p
    unfold genRefSets at h
    rcases hfp : genForPool pool nv l_r fuel g with _ | ⟨rs, g2⟩
    · rw [hfp] at h; simp at h
    · rw [hfp] at h
      simp only at h
      rcases hrest : genRefSets rest nv l_r fuel g2 with _ | ⟨out, g3⟩
      · rw [hrest] at h; simp at h
      · rw [hrest] at h
        simp only [Option.some.injEq, Prod.mk.injEq] at h
        obtain ⟨h1, h2⟩ := h
        subst h1
        have hpoolnd : pool.Nodup := by simpa using hnd (q_v, pool) (by simp)
        have hchunks : ∀ c ∈ chunks l_r pool, c.length ≤ l_r ∧ c.Nodup := by
          intro c hc
          obtain ⟨hc1, hc2, _⟩ := chunks_mem hl pool c hc
          exact ⟨hc1, hc2.nodup hpoolnd⟩
        obtain ⟨hlen, hsets⟩ := genChunksGo_spec hfp hchunks
        exact List.Forall₂.cons ⟨rfl, hlen, hsets⟩
          (ih hrest (fun p hp => hnd p (by simp [hp])))

theorem popAssign_spec :
    ∀ {rs : List (List String)} {idxs : List Nat} {d : List (Nat × List String)}
      {idxs1 : List Nat},
      popAssign rs idxs = some (d, idxs1) →
      d.map Prod.snd = rs ∧ idxs = idxs1 ++ (d.map Prod.fst).reverse := by
  intro rs
  induction rs with
  | nil =>
    intro idxs d idxs1 h
    unfold popAssign at h
    simp only [Option.some.injEq, Prod.mk.injEq] at h
    obtain ⟨h1, h2⟩ := h
    subst h1 h2
    simp
  | cons r rest ih =>
    intro idxs d idxs1 h
    unfold popAssign at h
    rcases hlast : idxs.getLast? with _ | i
    · rw [hlast] at h; simp at h
    · rw [hlast] at h
      rcases hrec : popAssign rest idxs.dropLast with _ | ⟨out, idxs2⟩
      · rw [hrec] at h; simp at h
      · rw [hrec] at h
        simp only [Option.some.injEq, Prod.mk.injEq] at h
        obtain ⟨h1, h2⟩ := h
        subst h1 h2
        obtain ⟨ih1, ih2⟩ := ih hrec
        have hne : idxs ≠ [] := by
          intro hnil
          rw [hnil] at hlast
          simp at hlast
        have hsplit : idxs = idxs.dropLast ++ [i] := by
          have h0 := List.dropLast_append_getLast hne
          rw [List.getLast?_eq_getLast idxs hne] at hlast
          simp only [Option.some.injEq] at hlast
          rw [← hlast]
          exact h0.symm
        constructor
        · simp [ih1]
        · rw [hsplit, ih2]
          simp

theorem assignAll_spec :
    ∀ {refsets : List (String × List (List String))} {idxs : List Nat}
      {table : List (String × List (Nat × List String))} {idxs1 : List Nat},
      assignAll refsets idxs = some (table, idxs1) →
      List.Forall₂
        (fun (q : String × List (List String)) (t : String × List (Nat × List String)) =>
          t.1 = q.1 ∧ t.2.map Prod.snd = q.2) refsets table ∧
      idxs = idxs1 ++ (tableIndices table).reverse := by
  intro refsets
  induction refsets with
  | nil =>
    intro idxs table idxs1 h
    unfold assignAll at h
    simp only [Option.some.injEq, Prod.mk.injEq] at h
    obtain ⟨h1, h2⟩ := h
    subst h1 h2
    exact ⟨List.Forall₂.nil, by simp [tableIndices]⟩
  | cons p rest ih =>
    intro idxs table idxs1 h
    obtain ⟨q_v, rs⟩ := p
    unfold assignAll at h
    rcases hpop : popAssign rs idxs with _ | ⟨d, idxs2⟩
    · rw [hpop] at h; simp at h
    · rw [hpop] at h
      simp only at h
      rcases hrec : assignAll rest idxs2 with _ | ⟨out, idxs3⟩
      · rw [hrec] at h; simp at h
      · rw [hrec] at h
        simp only [Option.some.injEq, Prod.mk.injEq] at h
        obtain ⟨h1, h2⟩ := h
        subst h1 h2
        obtain ⟨hp1, hp2⟩ := popAssign_spec hpop
        obtain ⟨hr1, hr2⟩ := ih hrec
        refine ⟨List.Forall₂.cons ⟨rfl, hp1⟩ hr1, ?_⟩
        rw [hp2, hr2]
        simp [tableIndices]

/-! ### C6: every emitted reference set has exactly l_r distinct members -/

/-- C6: every reference set in the table produced by
`generate_reference_sets` — for every vulnerable q-gram, whether built from a
full chunk or padded — has exactly `l_r` distinct members, so the size
assertion guarding acceptance never fails on an emitted set. -/
theorem C6_emitted_ref_set_size (v : VAH) (pub : List (String × List String))
    (fuel : Nat) (table : List (String × List (Nat × List String)))
    (h : v.generate_reference_sets pub fuel = some table) :
    ∀ p ∈ table, ∀ e ∈ p.2, (e.2 : List String).length = v.l_r ∧ e.2.Nodup := by
  unfold VAH.generate_reference_sets at h
  split at h
  · simp at h
  · next hl =>
    simp only [] at h
    rcases hgen : genRefSets (coPools v.vuln_q_grams pub) v.non_vuln_q_grams v.l_r fuel
        (seededRNG v.secret_seed) with _ | ⟨refsets, g1⟩
    · rw [hgen] at h; simp at h
    · rw [hgen] at h
      simp only at h
      rcases hs : g1.sample (totalRefCount refsets * v.vuln_q_grams.length)
          (totalRefCount refsets) with _ | ⟨idxs0, g2⟩
      · rw [hs] at h; simp at h
      · rw [hs] at h
        simp only at h
        rcases ha : assignAll refsets (g2.shuffle idxs0).1 with _ | ⟨table2, idxs1⟩
        · rw [ha] at h; simp at h
        · rw [ha] at h
          simp only [Option.some.injEq] at h
          subst h
          obtain ⟨hf2, _⟩ := assignAll_spec ha
          have hpools := (coPools_inv v.vuln_q_grams pub).2
          have hgen2 := genRefSets_forall2 hl hgen hpools
          intro p hp e he
          obtain ⟨q, hq1, hq2⟩ := forall2_mem_right hf2 p hp
          obtain ⟨pl, hpl1, hpl2⟩ := forall2_mem_right hgen2 q hq1
          have hsets := hpl2.2.2
          have : e.2 ∈ q.2 := by
            rw [← hq2.2]
            exact List.mem_map_of_mem Prod.snd he
          exact hsets e.2 this

/-- Closed witness for C6: a concrete generation run with one full chunk and
one padded chunk, both of size `l_r = 2`. -/
theorem C6_emitted_ref_set_size_witness :
    VAH.generate_reference_sets ⟨7, ["th"], ["zz", "yy"], 2⟩
        [("r1", ["th", "he", "er"]), ("r2", ["th", "in"])] 10
      = some [("th", [(1, ["he", "er"]), (0, ["in", "he"])])] ∧
    ∀ p ∈ [("th", [(1, ["he", "er"]), (0, ["in", "he"])])], ∀ e ∈ p.2,
      (e.2 : List String).length = 2 ∧ e.2.Nodup :=
  ⟨by decide,
   C6_emitted_ref_set_size ⟨7, ["th"], ["zz", "yy"], 2⟩
     [("r1", ["th", "he", "er"]), ("r2", ["th", "in"])] 10
     [("th", [(1, ["he", "er"]), (0, ["in", "he"])])] (by decide)⟩

/-! ### C9: the padding policy refines the spec description -/

/-- Reference Set Sampler as described by the spec (section 4.3), written from
its words: partition the pool into consecutive chunks of size `l_r`; a full
chunk is emitted as is; an undersized chunk is padded from the non-vulnerable
fallback pool when it is the *only* chunk (first and last), and from the full
co-occurrence pool when a full-size reference set was already produced. -/
def refSamplerSpecGo (pool nv : List String) (l_r fuel : Nat) :
    List (List String) → Bool → RNG → Option (List (List String) × RNG)
  | [], _, g => some ([], g)
  | c :: cs, isFirst, g =>
    let step : Option (List String × RNG) :=
      if c.length < l_r then
        if isFirst && cs.isEmpty then padFrom nv l_r fuel c g
        else padFrom pool l_r fuel c g
      else some (c, g)
    match step with
    | none => none
    | some (r, g1) =>
      match refSamplerSpecGo pool nv l_r fuel cs false g1 with
      | none => none
      | some (rs, g2) => some (r :: rs, g2)

/-- Spec-level Reference Set Sampler for one co-occurrence pool. -/
def refSetSamplerSpec (pool nv : List String) (l_r fuel : Nat) (g : RNG) :
    Option (List (List String) × RNG) :=
  refSamplerSpecGo pool nv l_r fuel (chunks l_r pool) true g

theorem genChunksGo_eq_spec {pool nv : List String} {l_r fuel : Nat} :
    ∀ (cs : List (List String)) (cnt : Nat) (g : RNG),
      (∀ c ∈ cs.dropLast, c.length = l_r) →
      genChunksGo pool nv l_r fuel cs cnt g
        = refSamplerSpecGo pool nv l_r fuel cs (cnt = 0) g := by
  intro cs
  induction cs with
  | nil => intro cnt g _; rfl
  | cons c cs ih =>
    intro cnt g hwf
    unfold genChunksGo refSamplerSpecGo
    have hstep : (if c.length < l_r then
          if cnt > 0 then padFrom pool l_r fuel c g
          else padFrom nv l_r fuel c g
        else some (c, g))
        = (if c.length < l_r then
          if (decide (cnt = 0)) && cs.isEmpty then padFrom nv l_r fuel c g
          else padFrom pool l_r fuel c g
        else some (c, g)) := by
      by_cases hlt : c.length < l_r
      · rcases hcs : cs with _ | ⟨c2, cs2⟩
        · by_cases hcnt : cnt = 0
          · simp [hlt, hcnt]
          · simp [hlt, hcnt, Nat.pos_of_ne_zero hcnt]
        · have hc_mem : c ∈ (c :: c2 :: cs2).dropLast := by
            rw [List.dropLast_cons_of_ne_nil (by simp)]
            simp
          rw [← hcs] at hc_mem
          have := hwf c hc_mem
          omega
      · simp [hlt]
    rw [hstep]
    have hrec : ∀ g1 : RNG, genChunksGo pool nv l_r fuel cs (cnt + 1) g1
        = refSamplerSpecGo pool nv l_r fuel cs false g1 := by
      intro g1
      have hwf2 : ∀ c2 ∈ cs.dropLast, c2.length = l_r := by
        intro c2 hc2
        rcases hcs : cs with _ | ⟨c3, cs3⟩
        · rw [hcs] at hc2; simp at hc2
        · apply hwf
          rw [hcs] at hc2 ⊢
          rw [List.dropLast_cons_of_ne_nil (by simp)]
          simp [hc2]
      have := ih (cnt + 1) g1 hwf2
      simpa using this
    rcases (if c.length < l_r then
        if (decide (cnt = 0)) && cs.isEmpty then padFrom nv l_r fuel c g
        else padFrom pool l_r fuel c g
      else some (c, g)) with _ | ⟨r, g1⟩
    · rfl
    · simp only [hrec]

/-- C9: for every co-occurrence pool, the implemented sampler
(`genForPool`, the inner loop of `generate_reference_sets`) coincides with the
spec-worded sampler: consecutive chunks of size `l_r`; an undersized final
chunk is padded from the full pool when a full-size reference set was already
produced for this vulnerable q-gram, and from the non-vulnerable fallback pool
when the undersized chunk is the only chunk. -/
theorem C9_padding_policy (pool nv : List String) (l_r fuel : Nat) (g : RNG)
    (hl : l_r ≠ 0) :
    genForPool pool nv l_r fuel g = refSetSamplerSpec pool nv l_r fuel g := by
  unfold genForPool refSetSamplerSpec
  have := @genChunksGo_eq_spec pool nv l_r fuel
    (chunks l_r pool) 0 g (chunks_dropLast_full hl pool)
  simpa using this

/-- Closed witness for C9 at a concrete undersized-plus-full pool. -/
theorem C9_padding_policy_witness :
    (2 : Nat) ≠ 0 ∧
    genForPool ["he", "er", "in"] ["zz", "yy"] 2 10 (seededRNG 7)
      = refSetSamplerSpec ["he", "er", "in"] ["zz", "yy"] 2 10 (seededRNG 7) :=
  ⟨by decide, C9_padding_policy ["he", "er", "in"] ["zz", "yy"] 2 10 (seededRNG 7)
    (by decide)⟩

/-! ### C5: reference-set existence per vulnerable q-gram -/

theorem forall2_comp {α β γ : Type} {R1 : α → β → Prop} {R2 : β → γ → Prop} :
    ∀ {l1 : List α} {l2 : List β} {l3 : List γ},
      List.Forall₂ R1 l1 l2 → List.Forall₂ R2 l2 l3 →
      List.Forall₂ (fun a c => ∃ b, R1 a b ∧ R2 b c) l1 l3 := by
  intro l1 l2 l3 h1
  induction h1 generalizing l3 with
  | nil =>
    intro h2
    cases h2
    exact List.Forall₂.nil
  | cons hr _ ih =>
    intro h2
    cases h2 with
    | cons hr2 htl2 => exact List.Forall₂.cons ⟨_, hr, hr2⟩ (ih htl2)

theorem alLookup_forall2 {β γ : Type} {R : β → γ → Prop} :
    ∀ {m1 : List (String × β)} {m2 : List (String × γ)},
      List.Forall₂ (fun p t => t.1 = p.1 ∧ R p.2 t.2) m1 m2 →
      ∀ {k : String} {v : β}, alLookup m1 k = some v →
        ∃ w, alLookup m2 k = some w ∧ R v w := by
  intro m1 m2 h
  induction h with
  | nil => intro k v hv; simp [alLookup] at hv
  | cons hr htl ih =>
    next p t _ _ =>
    intro k v hv
    obtain ⟨k1, v1⟩ := p
    obtain ⟨k2, w1⟩ := t
    obtain ⟨hk, hR⟩ := hr
    simp only at hk hR
    subst hk
    by_cases hke : k2 = k
    · simp [alLookup, hke] at hv ⊢
      subst hv
      exact hR
    · simp only [alLookup, if_neg hke] at hv ⊢
      exact ih hv

/-- C5 is refuted: a vulnerable q-gram whose public co-occurrence pool is
empty receives *zero* reference sets (the chunk loop body never runs, so no
fallback fires), and the maximum-score selection of the Hardener then fails on a
record containing that q-gram. -/
theorem C5_counterexample :
    VAH.generate_reference_sets ⟨7, ["th"], ["zz", "yy"], 2⟩ [("r1", ["ab", "cd"])] 10
      = some [("th", [])] ∧
    VAH.harden_with_vah_ref_sets ⟨7, ["th"], ["zz", "yy"], 2⟩ [("th", [])]
      [("s1", ["th", "ab"])] [("th", 1), ("ab", 1)] = none := by
  decide

/-- C5 as amended: the table produced by `generate_reference_sets` has a
non-empty entry exactly for the vulnerable q-grams whose co-occurrence pool is
non-empty (undersized non-empty pools are padded via the fallback path); a
vulnerable q-gram with an empty pool receives an empty entry, on which the
maximum-score selection of the Hardener fails. -/
theorem C5_ref_sets_iff_pool_nonempty (v : VAH) (pub : List (String × List String))
    (fuel : Nat) (table : List (String × List (Nat × List String)))
    (h : v.generate_reference_sets pub fuel = some table) :
    ∀ q_v pool, alLookup (coPools v.vuln_q_grams pub) q_v = some pool →
      ∃ d, alLookup table q_v = some d ∧ (d = [] ↔ pool = []) := by
  unfold VAH.generate_reference_sets at h
  split at h
  · simp at h
  · next hl =>
    simp only [] at h
    rcases hgen : genRefSets (coPools v.vuln_q_grams pub) v.non_vuln_q_grams v.l_r fuel
        (seededRNG v.secret_seed) with _ | ⟨refsets, g1⟩
    · rw [hgen] at h; simp at h
    · rw [hgen] at h
      simp only at h
      rcases hs : g1.sample (totalRefCount refsets * v.vuln_q_grams.length)
          (totalRefCount refsets) with _ | ⟨idxs0, g2⟩
      · rw [hs] at h; simp at h
      · rw [hs] at h
        simp only at h
        rcases ha : assignAll refsets (g2.shuffle idxs0).1 with _ | ⟨table2, idxs1⟩
        · rw [ha] at h; simp at h
        · rw [ha] at h
          simp only [Option.some.injEq] at h
          subst h
          obtain ⟨hf2, _⟩ := assignAll_spec ha
          have hpools := (coPools_inv v.vuln_q_grams pub).2
          have hgen2 := genRefSets_forall2 hl hgen hpools
          have hcomp : List.Forall₂
              (fun (p : String × List String) (t : String × List (Nat × List String)) =>
                t.1 = p.1 ∧ t.2.length = (chunks v.l_r p.2).length)
              (coPools v.vuln_q_grams pub) table2 := by
            apply (forall2_comp hgen2 hf2).imp
            rintro p t ⟨q, ⟨hq1, hq2, _⟩, ht1, ht2⟩
            refine ⟨ht1.trans hq1, ?_⟩
            have := congrArg List.length ht2
            simpa [hq2] using this
          intro q_v pool hpool
          obtain ⟨d, hd1, hd2⟩ := @alLookup_forall2 (List String)
            (List (Nat × List String))
            (fun (pool : List String) (d : List (Nat × List String)) =>
              d.length = (chunks v.l_r pool).length) _ _ hcomp _ _ hpool
          refine ⟨d, hd1, ?_⟩
          constructor
          · intro hdnil
            by_contra hpne
            have := chunks_ne_nil hl hpne
            rw [hdnil] at hd2
            simp at hd2
            exact this (List.length_eq_zero.mp hd2.symm)
          · intro hpnil
            subst hpnil
            have : (chunks v.l_r ([] : List String)).length = 0 := by
              cases hcl : chunks v.l_r ([] : List String) with
              | nil => simp
              | cons c cs =>
                obtain ⟨_, hsub, hne⟩ := chunks_mem hl [] c (by simp [hcl])
                exact absurd (List.sublist_nil.mp hsub) hne
            rw [this] at hd2
            exact List.length_eq_zero.mp hd2

/-- Closed witness for the amended C5 at a run with one non-empty pool. -/
theorem C5_ref_sets_iff_pool_nonempty_witness :
    VAH.generate_reference_sets ⟨7, ["th"], ["zz", "yy"], 2⟩
        [("r1", ["th", "he", "er"]), ("r2", ["th", "in"])] 10
      = some [("th", [(1, ["he", "er"]), (0, ["in", "he"])])] ∧
    ∀ q_v pool,
      alLookup (coPools ["th"] [("r1", ["th", "he", "er"]), ("r2", ["th", "in"])]) q_v
        = some pool →
      ∃ d, alLookup [("th", [(1, ["he", "er"]), (0, ["in", "he"])])] q_v = some d ∧
        (d = [] ↔ pool = []) :=
  ⟨by decide,
   C5_ref_sets_iff_pool_nonempty ⟨7, ["th"], ["zz", "yy"], 2⟩
     [("r1", ["th", "he", "er"]), ("r2", ["th", "in"])] 10
     [("th", [(1, ["he", "er"]), (0, ["in", "he"])])] (by decide)⟩

/-! ### C4: the randomized, collision-free indexing scheme -/

theorem getD_cons_eraseIdx_perm :
    ∀ (l : List Nat) (j : Nat), j < l.length →
      (l.getD j 0 :: l.eraseIdx j).Perm l := by
  intro l
  induction l with
  | nil => intro j hj; simp at hj
  | cons a t ih =>
    intro j hj
    cases j with
    | zero => simp
    | succ j =>
      simp only [List.getD_cons_succ, List.eraseIdx_cons_succ]
      have hj2 : j < t.length := by simpa using hj
      exact (List.Perm.swap a (t.getD j 0) (t.eraseIdx j)).trans ((ih j hj2).cons a)

theorem sampleAux_spec :
    ∀ (k : Nat) {g g1 : RNG} {avail l : List Nat},
      avail.Nodup → sampleAux g avail k = some (l, g1) →
      l.length = k ∧ l.Nodup ∧ ∀ x ∈ l, x ∈ avail := by
  intro k
  induction k with
  | zero =>
    intro g g1 avail l hnd h
    unfold sampleAux at h
    simp only [Option.some.injEq, Prod.mk.injEq] at h
    obtain ⟨h1, _⟩ := h
    subst h1
    simp
  | succ k ih =>
    intro g g1 avail l hnd h
    unfold sampleAux at h
    split at h
    · simp at h
    · next hne =>
      simp only [RNG.next] at h
      rcases hrec : sampleAux ⟨g.stream, g.pos + 1⟩
          (avail.eraseIdx (g.stream g.pos % avail.length)) k with _ | ⟨rest, g2⟩
      · rw [hrec] at h; simp at h
      · rw [hrec] at h
        simp only [Option.some.injEq, Prod.mk.injEq] at h
        obtain ⟨h1, _⟩ := h
        subst h1
        have hlenpos : 0 < avail.length := by
          cases avail with
          | nil => simp at hne
          | cons a t => simp
        have hj : g.stream g.pos % avail.length < avail.length :=
          Nat.mod_lt _ hlenpos
        have hperm := getD_cons_eraseIdx_perm avail _ hj
        have hnd2 : (avail.getD (g.stream g.pos % avail.length) 0 ::
            avail.eraseIdx (g.stream g.pos % avail.length)).Nodup :=
          hperm.symm.nodup hnd
        have hchosen_notmem := (List.nodup_cons.mp hnd2).1
        have hnd3 := (List.nodup_cons.mp hnd2).2
        obtain ⟨ihl, ihnd, ihmem⟩ := ih hnd3 hrec
        refine ⟨by simp [ihl], ?_, ?_⟩
        · rw [List.nodup_cons]
          exact ⟨fun hmem => hchosen_notmem (ihmem _ hmem), ihnd⟩
        · intro x hx
          rcases List.mem_cons.mp hx with hx | hx
          · subst hx
            rw [List.getD_eq_getElem avail 0 hj]
            exact List.getElem_mem hj
          · exact (List.eraseIdx_sublist avail _).subset (ihmem x hx)

theorem sample_spec {g g1 : RNG} {n k : Nat} {l : List Nat}
    (h : g.sample n k = some (l, g1)) :
    l.length = k ∧ l.Nodup ∧ ∀ x ∈ l, x < n := by
  obtain ⟨h1, h2, h3⟩ := sampleAux_spec k (List.nodup_range _) h
  exact ⟨h1, h2, fun x hx => List.mem_range.mp (h3 x hx)⟩

theorem shuffleAux_perm :
    ∀ (fuel : Nat) (g : RNG) (avail : List Nat), avail.length ≤ fuel →
      (shuffleAux fuel g avail).1.Perm avail := by
  intro fuel
  induction fuel with
  | zero =>
    intro g avail hle
    have : avail = [] := List.length_eq_zero.mp (by omega)
    subst this
    simp [shuffleAux]
  | succ fuel ih =>
    intro g avail hle
    unfold shuffleAux
    split
    · next hemp =>
      have : avail = [] := by simpa [List.isEmpty_iff] using hemp
      subst this
      simp
    · next hne =>
      simp only [RNG.next]
      have hlenpos : 0 < avail.length := by
        cases avail with
        | nil => simp at hne
        | cons a t => simp
      have hj : g.stream g.pos % avail.length < avail.length :=
        Nat.mod_lt _ hlenpos
      have hrec := ih ⟨g.stream, g.pos + 1⟩
        (avail.eraseIdx (g.stream g.pos % avail.length))
        (by rw [List.length_eraseIdx_of_lt hj]; omega)
      exact (hrec.cons _).trans (getD_cons_eraseIdx_perm avail _ hj)

theorem assign_pair_count :
    ∀ {refsets : List (String × List (List String))}
      {table : List (String × List (Nat × List String))},
      List.Forall₂
        (fun (q : String × List (List String)) (t : String × List (Nat × List String)) =>
          t.1 = q.1 ∧ t.2.map Prod.snd = q.2) refsets table →
      tablePairCount table = totalRefCount refsets := by
  intro refsets table h
  induction h with
  | nil => rfl
  | cons hr _ ih =>
    have hlen := congrArg List.length hr.2
    simp at hlen
    simp [tablePairCount, totalRefCount] at ih ⊢
    omega

/-- C4: in the table produced by `generate_reference_sets`, all integer
indices across the entire table are pairwise distinct and drawn from
`[0, T·V)` without replacement; the number of top-level keys equals the number
`V` of vulnerable q-grams; and the total number of (index, reference set)
pairs equals the total number `T` of reference sets generated. -/
theorem C4_index_table_invariants (v : VAH) (pub : List (String × List String))
    (fuel : Nat) (table : List (String × List (Nat × List String)))
    (h : v.generate_reference_sets pub fuel = some table) :
    (tableIndices table).Nodup ∧
    (∀ i ∈ tableIndices table,
      i < tablePairCount table * v.vuln_q_grams.length) ∧
    table.length = v.vuln_q_grams.length ∧
    (∀ refsets g1,
      genRefSets (coPools v.vuln_q_grams pub) v.non_vuln_q_grams v.l_r fuel
        (seededRNG v.secret_seed) = some (refsets, g1) →
      tablePairCount table = totalRefCount refsets) := by
  unfold VAH.generate_reference_sets at h
  split at h
  · simp at h
  · next hl =>
    simp only [] at h
    rcases hgen : genRefSets (coPools v.vuln_q_grams pub) v.non_vuln_q_grams v.l_r fuel
        (seededRNG v.secret_seed) with _ | ⟨refsets, g1⟩
    · rw [hgen] at h; simp at h
    · rw [hgen] at h
      simp only at h
      rcases hs : g1.sample (totalRefCount refsets * v.vuln_q_grams.length)
          (totalRefCount refsets) with _ | ⟨idxs0, g2⟩
      · rw [hs] at h; simp at h
      · rw [hs] at h
        simp only at h
        rcases ha : assignAll refsets (g2.shuffle idxs0).1 with _ | ⟨table2, idxs1⟩
        · rw [ha] at h; simp at h
        · rw [ha] at h
          simp only [Option.some.injEq] at h
          subst h
          obtain ⟨hf2, hidx⟩ := assignAll_spec ha
          have hcount : tablePairCount table2 = totalRefCount refsets :=
            assign_pair_count hf2
          obtain ⟨hs1, hs2, hs3⟩ := sample_spec hs
          have hshuffle : (g2.shuffle idxs0).1.Perm idxs0 :=
            shuffleAux_perm idxs0.length g2 idxs0 le_rfl
          have hsuffix : ((tableIndices table2).reverse).Sublist (g2.shuffle idxs0).1 :=
            List.IsSuffix.sublist ⟨idxs1, hidx.symm⟩
          have hnd : (tableIndices table2).Nodup := by
            rw [← List.nodup_reverse]
            exact hsuffix.nodup (hshuffle.symm.nodup hs2)
          refine ⟨hnd, ?_, ?_, ?_⟩
          · intro i hi
            have hi2 : i ∈ (g2.shuffle idxs0).1 := by
              rw [hidx]
              exact List.mem_append_right idxs1 (by simpa using hi)
            have := hs3 i (hshuffle.subset hi2)
            rw [hcount]
            exact this
          · have h1 : refsets.length = table2.length := hf2.length_eq
            have h2 : (coPools v.vuln_q_grams pub).length = refsets.length := by
              have hpools := (coPools_inv v.vuln_q_grams pub).2
              exact (genRefSets_forall2 hl hgen hpools).length_eq
            have h3 : (coPools v.vuln_q_grams pub).length = v.vuln_q_grams.length := by
              have := congrArg List.length (coPools_inv v.vuln_q_grams pub).1
              simpa using this
            omega
          · intro refsets2 g4 hgen2
            simp only [Option.some.injEq, Prod.mk.injEq] at hgen2
            obtain ⟨he, _⟩ := hgen2
            subst he
            exact hcount

/-- Closed witness for C4 at a concrete generation run. -/
theorem C4_index_table_invariants_witness :
    VAH.generate_reference_sets ⟨7, ["th"], ["zz", "yy"], 2⟩
        [("r1", ["th", "he", "er"]), ("r2", ["th", "in"])] 10
      = some [("th", [(1, ["he", "er"]), (0, ["in", "he"])])] ∧
    (tableIndices [("th", [(1, ["he", "er"]), (0, ["in", "he"])])]).Nodup ∧
    (∀ i ∈ tableIndices [("th", [(1, ["he", "er"]), (0, ["in", "he"])])],
      i < tablePairCount [("th", [(1, ["he", "er"]), (0, ["in", "he"])])] * (1 : Nat)) ∧
    ([("th", [(1, ["he", "er"]), (0, ["in", "he"])])] :
      List (String × List (Nat × List String))).length = 1 :=
  have hmain := C4_index_table_invariants ⟨7, ["th"], ["zz", "yy"], 2⟩
    [("r1", ["th", "he", "er"]), ("r2", ["th", "in"])] 10
    [("th", [(1, ["he", "er"]), (0, ["in", "he"])])] (by decide)
  ⟨by decide, hmain.1, hmain.2.1, hmain.2.2.1⟩

/-! ### C7: the Dice similarity contract -/

theorem dice_none_iff (A B : List String) :
    q_gram_dice_sim A B = none ↔ A = [] ∧ B = [] := by
  unfold q_gram_dice_sim
  constructor
  · intro h
    split at h
    · next hlen =>
      constructor
      · exact List.length_eq_zero.mp (by omega)
      · exact List.length_eq_zero.mp (by omega)
    · simp at h
  · rintro ⟨hA, hB⟩
    simp [hA, hB]

/-- Pure arithmetic core of the Dice contract, for a similarity value
`2n / (a + b)` with `n ≤ a`, `n ≤ b` and a positive denominator. -/
theorem dice_val_props (n a b : ℕ) (hab : 0 < a + b) (hna : n ≤ a) (hnb : n ≤ b) :
    Rat.divInt (2 * n) (a + b) = 2 * (n : ℚ) / ((a : ℚ) + (b : ℚ)) ∧
    0 ≤ Rat.divInt (2 * n) (a + b) ∧
    Rat.divInt (2 * n) (a + b) ≤ 1 ∧
    (Rat.divInt (2 * n) (a + b) = 1 ↔ n = a ∧ n = b) ∧
    (Rat.divInt (2 * n) (a + b) = 0 ↔ n = 0) := by
  have habQ : (0 : ℚ) < (a : ℚ) + (b : ℚ) := by exact_mod_cast hab
  have hdiv : Rat.divInt (2 * n) (a + b) = 2 * (n : ℚ) / ((a : ℚ) + (b : ℚ)) := by
    rw [Rat.divInt_eq_div]
    push_cast
    ring
  refine ⟨hdiv, ?_, ?_, ?_, ?_⟩
  · rw [hdiv]
    positivity
  · rw [hdiv, div_le_one habQ]
    have h2 : (2 * n : ℕ) ≤ a + b := by omega
    calc 2 * (n : ℚ) = ((2 * n : ℕ) : ℚ) := by push_cast; ring
      _ ≤ ((a + b : ℕ) : ℚ) := by exact_mod_cast h2
      _ = (a : ℚ) + (b : ℚ) := by push_cast; ring
  · rw [hdiv, div_eq_one_iff_eq (ne_of_gt habQ)]
    constructor
    · intro h
      have h2 : ((2 * n : ℕ) : ℚ) = ((a + b : ℕ) : ℚ) := by push_cast; push_cast at h; linarith
      have h3 : 2 * n = a + b := by exact_mod_cast h2
      omega
    · rintro ⟨h1, h2⟩
      subst h1 h2
      ring
  · rw [hdiv, div_eq_zero_iff]
    constructor
    · intro h
      rcases h with h | h
      · have : 2 * (n : ℚ) = ((2 * n : ℕ) : ℚ) := by push_cast; ring
        rw [this] at h
        have : (2 * n : ℕ) = 0 := by exact_mod_cast h
        omega
      · exact absurd h (ne_of_gt habQ)
    · intro h
      subst h
      left
      norm_num

/-- C7: for every two q-gram sets A and B that are not both empty,
`q_gram_dice_sim` returns exactly `2·|A∩B|/(|A|+|B|)`, a value in `[0,1]`
that equals `1` iff `A = B` and equals `0` iff `A` and `B` are disjoint; it
fails (division by zero) exactly when both sets are empty. -/
theorem C7_dice_sim_contract (A B : List String) (hA : A.Nodup) (hB : B.Nodup) :
    (q_gram_dice_sim A B = none ↔ A = [] ∧ B = []) ∧
    (∀ r : ℚ, q_gram_dice_sim A B = some r →
      r = 2 * ((A.toFinset ∩ B.toFinset).card : ℚ) /
          ((A.toFinset.card : ℚ) + (B.toFinset.card : ℚ)) ∧
      0 ≤ r ∧ r ≤ 1 ∧
      (r = 1 ↔ A.toFinset = B.toFinset) ∧
      (r = 0 ↔ ∀ x ∈ A, x ∉ B)) := by
  refine ⟨dice_none_iff A B, ?_⟩
  intro r hr
  unfold q_gram_dice_sim at hr
  split at hr
  · simp at hr
  · next hlen =>
    simp only [Option.some.injEq] at hr
    have hcount : (A.filter (fun x => x ∈ B)).length = (A.toFinset ∩ B.toFinset).card := by
      have h1 : (A.filter (fun x => x ∈ B)).toFinset = A.toFinset ∩ B.toFinset := by
        ext x
        simp [List.mem_filter]
      have h2 : (A.filter (fun x => x ∈ B)).toFinset.card
          = (A.filter (fun x => x ∈ B)).length :=
        List.toFinset_card_of_nodup (hA.filter _)
      rw [← h1, h2]
    have hAcard : A.toFinset.card = A.length := List.toFinset_card_of_nodup hA
    have hBcard : B.toFinset.card = B.length := List.toFinset_card_of_nodup hB
    have hna : (A.toFinset ∩ B.toFinset).card ≤ A.length := by
      rw [← hAcard]
      exact Finset.card_le_card Finset.inter_subset_left
    have hnb : (A.toFinset ∩ B.toFinset).card ≤ B.length := by
      rw [← hBcard]
      exact Finset.card_le_card Finset.inter_subset_right
    have hab : 0 < A.length + B.length := Nat.pos_of_ne_zero hlen
    obtain ⟨hdiv, h0, h1, hone, hzero⟩ :=
      dice_val_props (A.toFinset ∩ B.toFinset).card A.length B.length hab hna hnb
    have hr2 : r = Rat.divInt (2 * (A.toFinset ∩ B.toFinset).card) (A.length + B.length) := by
      rw [← hr, hcount]
    refine ⟨?_, ?_, ?_, ?_, ?_⟩
    · rw [hr2, hdiv, hAcard, hBcard]
    · rw [hr2]; exact h0
    · rw [hr2]; exact h1
    · rw [hr2, hone]
      constructor
      · rintro ⟨hja, hjb⟩
        have hsubA : A.toFinset ∩ B.toFinset = A.toFinset :=
          Finset.eq_of_subset_of_card_le Finset.inter_subset_left (by rw [hAcard, ← hja])
        have hsubB : A.toFinset ∩ B.toFinset = B.toFinset :=
          Finset.eq_of_subset_of_card_le Finset.inter_subset_right (by rw [hBcard, ← hjb])
        rw [← hsubA, hsubB]
      · intro h
        rw [h, Finset.inter_self, hBcard]
        rw [h] at hAcard
        omega
    · rw [hr2, hzero]
      constructor
      · intro h x hxA hxB
        have hmem : x ∈ A.toFinset ∩ B.toFinset := by
          simp [List.mem_toFinset, hxA, hxB]
        have : 0 < (A.toFinset ∩ B.toFinset).card := Finset.card_pos.mpr ⟨x, hmem⟩
        omega
      · intro h
        have hempty : A.toFinset ∩ B.toFinset = ∅ := by
          ext x
          simp only [Finset.mem_inter, List.mem_toFinset, Finset.not_mem_empty,
            iff_false, not_and]
          intro hxA
          exact h x hxA
        rw [hempty, Finset.card_empty]

/-- Closed witness for C7 at a concrete pair of non-empty q-gram sets. -/
theorem C7_dice_sim_contract_witness :
    (q_gram_dice_sim ["ab", "cd"] ["cd"] = none ↔ ["ab", "cd"] = ([] : List String) ∧ ["cd"] = ([] : List String)) ∧
    (∀ r : ℚ, q_gram_dice_sim ["ab", "cd"] ["cd"] = some r →
      r = 2 * ((["ab", "cd"].toFinset ∩ ["cd"].toFinset).card : ℚ) /
          ((["ab", "cd"].toFinset.card : ℚ) + ((["cd"] : List String).toFinset.card : ℚ)) ∧
      0 ≤ r ∧ r ≤ 1 ∧
      (r = 1 ↔ ["ab", "cd"].toFinset = ["cd"].toFinset) ∧
      (r = 0 ↔ ∀ x ∈ ["ab", "cd"], x ∉ (["cd"] : List String))) :=
  C7_dice_sim_contract ["ab", "cd"] ["cd"] (by decide) (by decide)

/-! ### C3: determinism of the hardening phase -/

/-- C3: two runs with identical secret seed, identical inputs (with their
iteration orders), identical `l_r` and identical vulnerable-q-gram set produce
identical output: `harden_with_vah_ref_sets` is a deterministic function of
the seed, the pre-built reference-index table, and its inputs (and likewise
for `generate_reference_sets`). -/
theorem C3_harden_deterministic (v1 v2 : VAH)
    (hseed : v1.secret_seed = v2.secret_seed)
    (hvuln : v1.vuln_q_grams = v2.vuln_q_grams)
    (hnv : v1.non_vuln_q_grams = v2.non_vuln_q_grams)
    (hlr : v1.l_r = v2.l_r) :
    (∀ table data_dict q_gram_f_dist,
      v1.harden_with_vah_ref_sets table data_dict q_gram_f_dist
        = v2.harden_with_vah_ref_sets table data_dict q_gram_f_dist) ∧
    (∀ pub fuel,
      v1.generate_reference_sets pub fuel = v2.generate_reference_sets pub fuel) := by
  obtain ⟨s1, q1, n1, l1⟩ := v1
  obtain ⟨s2, q2, n2, l2⟩ := v2
  simp only at hseed hvuln hnv hlr
  subst hseed
  subst hvuln
  subst hnv
  subst hlr
  exact ⟨fun _ _ _ => rfl, fun _ _ => rfl⟩

/-- Closed witness for C3: two structurally equal hardener states at concrete
values. -/
theorem C3_harden_deterministic_witness :
    (∀ table data_dict q_gram_f_dist,
      VAH.harden_with_vah_ref_sets ⟨7, ["th"], ["zz"], 2⟩ table data_dict q_gram_f_dist
        = VAH.harden_with_vah_ref_sets ⟨7, ["th"], ["zz"], 2⟩ table data_dict
            q_gram_f_dist) ∧
    (∀ pub fuel,
      VAH.generate_reference_sets ⟨7, ["th"], ["zz"], 2⟩ pub fuel
        = VAH.generate_reference_sets ⟨7, ["th"], ["zz"], 2⟩ pub fuel) :=
  C3_harden_deterministic ⟨7, ["th"], ["zz"], 2⟩ ⟨7, ["th"], ["zz"], 2⟩ rfl rfl rfl rfl

/-! ### C2: conservation of the frequency ledger -/

theorem hardenQ_sum {table : List (String × List (Nat × List String))}
    {q_v : String} {qs : List String} {fdist : List (String × Int)} {g : RNG}
    {qs1 : List String} {f2 : List (String × Int)} {g1 : RNG}
    (h : hardenQ table q_v qs fdist g = some (qs1, f2, g1)) :
    alSum f2 = alSum fdist := by
  unfold hardenQ at h
  rcases hlk : alLookup table q_v with _ | refs
  · rw [hlk] at h; simp at h
  · rw [hlk] at h
    simp only at h
    rcases hsc : simScoresFor qs refs with _ | sim_scores
    · rw [hsc] at h; simp at h
    · rw [hsc] at h
      simp only at h
      split at h
      · simp at h
      · rcases hpick : g.pick (maxKeysOf sim_scores) with _ | ⟨qualifier, g2⟩
        · rw [hpick] at h; simp at h
        · rw [hpick] at h
          simp only at h
          split at h
          · next hmem =>
            rcases hfd : alLookup fdist q_v with _ | c
            · rw [hfd] at h; simp at h
            · rw [hfd] at h
              simp only [Option.some.injEq, Prod.mk.injEq] at h
              obtain ⟨_, hf, _⟩ := h
              have hsum1 : alSum (if c - 1 = 0 then alErase fdist q_v
                  else alUpdate fdist q_v (c - 1)) = alSum fdist - 1 := by
                split
                · next hc =>
                  rw [alSum_erase_of_lookup_some hfd]
                  omega
                · rw [alSum_update_of_lookup_some hfd]
                  ring
              rw [← hf]
              rcases hfr : alLookup (if c - 1 = 0 then alErase fdist q_v
                  else alUpdate fdist q_v (c - 1)) (q_v ++ Nat.repr qualifier)
                  with _ | c2
              · rw [alSum_update_of_lookup_none hfr]
                omega
              · rw [alSum_update_of_lookup_some hfr]
                omega
          · simp at h

theorem hardenRecord_sum {table : List (String × List (Nat × List String))} :
    ∀ {todo qs : List String} {fdist : List (String × Int)} {g : RNG}
      {qs1 : List String} {f1 : List (String × Int)} {g1 : RNG},
      hardenRecord table todo qs fdist g = some (qs1, f1, g1) →
      alSum f1 = alSum fdist := by
  intro todo
  induction todo with
  | nil =>
    intro qs fdist g qs1 f1 g1 h
    unfold hardenRecord at h
    simp only [Option.some.injEq, Prod.mk.injEq] at h
    obtain ⟨_, hf, _⟩ := h
    rw [hf]
  | cons q_v rest ih =>
    intro qs fdist g qs1 f1 g1 h
    unfold hardenRecord at h
    rcases hq : hardenQ table q_v qs fdist g with _ | ⟨⟨qs2, f3, g3⟩⟩
    · rw [hq] at h; simp at h
    · rw [hq] at h
      simp only at h
      rw [ih h, hardenQ_sum hq]

theorem hardenAll_sum {vuln : List String}
    {table : List (String × List (Nat × List String))} :
    ∀ {data : List (String × List String)} {fdist : List (String × Int)} {g : RNG}
      {out : List (String × List String)} {f1 : List (String × Int)} {g1 : RNG},
      hardenAll vuln table data fdist g = some (out, f1, g1) →
      alSum f1 = alSum fdist := by
  intro data
  induction data with
  | nil =>
    intro fdist g out f1 g1 h
    unfold hardenAll at h
    simp only [Option.some.injEq, Prod.mk.injEq] at h
    obtain ⟨_, hf, _⟩ := h
    rw [hf]
  | cons p rest ih =>
    intro fdist g out f1 g1 h
    obtain ⟨rec_id, qs⟩ := p
    unfold hardenAll at h
    simp only [] at h
    by_cases hemp : (qs.filter (fun q => q ∈ vuln)).isEmpty = true
    · rw [if_pos hemp] at h
      rcases hrec : hardenAll vuln table rest fdist g with _ | ⟨⟨out2, f3, g3⟩⟩
      · rw [hrec] at h; simp at h
      · rw [hrec] at h
        simp only [Option.some.injEq, Prod.mk.injEq] at h
        obtain ⟨_, hf, _⟩ := h
        rw [← hf]
        exact ih hrec
    · rw [if_neg hemp] at h
      rcases hq : hardenRecord table (qs.filter (fun q => q ∈ vuln)) qs fdist g
          with _ | ⟨⟨qs2, f3, g3⟩⟩
      · rw [hq] at h; simp at h
      · rw [hq] at h
        simp only at h
        rcases hrec : hardenAll vuln table rest f3 g3 with _ | ⟨⟨out2, f4, g4⟩⟩
        · rw [hrec] at h; simp at h
        · rw [hrec] at h
          simp only [Option.some.injEq, Prod.mk.injEq] at h
          obtain ⟨_, hf, _⟩ := h
          rw [← hf, ih hrec, hardenRecord_sum hq]

/-- C2: for every hardening run that completes, the sum of all values in the
frequency-distribution ledger after the run equals the sum before the run:
each substitution is one decrement plus one increment of equal magnitude, and
deleting an entry that reached zero does not change the total. -/
theorem C2_ledger_conservation (v : VAH)
    (table : List (String × List (Nat × List String)))
    (data_dict : List (String × List String)) (q_gram_f_dist : List (String × Int))
    (out : List (String × List String)) (f : List (String × Int))
    (h : v.harden_with_vah_ref_sets table data_dict q_gram_f_dist = some (out, f)) :
    alSum f = alSum q_gram_f_dist := by
  unfold VAH.harden_with_vah_ref_sets at h
  rcases ha : hardenAll v.vuln_q_grams table data_dict q_gram_f_dist
      (seededRNG v.secret_seed) with _ | ⟨⟨out2, f2, g2⟩⟩
  · rw [ha] at h; simp at h
  · rw [ha] at h
    simp only [Option.some.injEq, Prod.mk.injEq] at h
    obtain ⟨_, hf⟩ := h
    rw [← hf]
    exact hardenAll_sum ha

/-- Closed witness for C2 at a concrete completing run. -/
theorem C2_ledger_conservation_witness :
    VAH.harden_with_vah_ref_sets ⟨7, ["th"], ["zz", "yy"], 2⟩
        [("th", [(4, ["he", "er"]), (9, ["in", "qu"])])]
        [("s1", ["th", "er"]), ("s2", ["ab"])] [("th", 1), ("er", 1), ("ab", 1)]
      = some ([("s1", ["er", "th4"]), ("s2", ["ab"])],
          [("er", 1), ("ab", 1), ("th4", 1)]) ∧
    alSum [("er", 1), ("ab", 1), ("th4", 1)] = alSum [("th", 1), ("er", 1), ("ab", 1)] :=
  ⟨by decide,
   C2_ledger_conservation ⟨7, ["th"], ["zz", "yy"], 2⟩
     [("th", [(4, ["he", "er"]), (9, ["in", "qu"])])]
     [("s1", ["th", "er"]), ("s2", ["ab"])] [("th", 1), ("er", 1), ("ab", 1)]
     [("s1", ["er", "th4"]), ("s2", ["ab"])] [("er", 1), ("ab", 1), ("th4", 1)]
     (by decide)⟩

/-! ### C8: qualifier selection achieves the maximum Dice score -/

theorem pick_mem {α : Type} [Inhabited α] {g g1 : RNG} {l : List α} {a : α}
    (h : g.pick l = some (a, g1)) : a ∈ l := by
  unfold RNG.pick at h
  split at h
  · simp at h
  · next hne =>
    simp only [RNG.next, Option.some.injEq, Prod.mk.injEq] at h
    obtain ⟨h1, _⟩ := h
    have hlenpos : 0 < l.length := by
      cases l with
      | nil => simp at hne
      | cons x t => simp
    have hj : g.stream g.pos % l.length < l.length := Nat.mod_lt _ hlenpos
    rw [← h1, List.getD_eq_getElem l default hj]
    exact List.getElem_mem hj

theorem pick_singleton {α : Type} [Inhabited α] {g g1 : RNG} {k a : α}
    (h : g.pick [k] = some (a, g1)) : a = k := by
  unfold RNG.pick at h
  simp [RNG.next, Nat.mod_one] at h
  exact h.1.symm

theorem sorted_mem_takeWhile_eq_max {m : ℚ} :
    ∀ {l : List (Nat × ℚ)}, List.Sorted (fun a b : Nat × ℚ => b.2 ≤ a.2) l →
      (∀ p ∈ l, p.2 ≤ m) → ∀ p ∈ l, p.2 = m →
      p ∈ l.takeWhile (fun p => p.2 = m) := by
  intro l
  induction l with
  | nil => intro _ _ p hp; simp at hp
  | cons a t ih =>
    intro hsorted hbound p hp hpm
    rw [List.sorted_cons] at hsorted
    by_cases ha : a.2 = m
    · rw [List.takeWhile_cons_of_pos (by simpa using ha)]
      rcases List.mem_cons.mp hp with hp | hp
      · simp [hp]
      · exact List.mem_cons_of_mem a
          (ih hsorted.2 (fun q hq => hbound q (by simp [hq])) p hp hpm)
    · exfalso
      rcases List.mem_cons.mp hp with hp | hp
      · exact ha (hp ▸ hpm)
      · have h1 : p.2 ≤ a.2 := hsorted.1 p hp
        have h2 : a.2 ≤ m := hbound a (by simp)
        rw [hpm] at h1
        exact ha (le_antisymm h2 h1)

/-- C8: whenever a substitution step of the Hardener succeeds, the chosen
qualifier index achieves the maximum Dice similarity (exact equality) between
the current q-gram set of the record and the reference sets registered under the
vulnerable q-gram; the candidate list contains exactly the maximizers, the
seeded pick stays inside it, a unique maximizer is taken directly, and the
hardened set substitutes the qualified token for the vulnerable q-gram. -/
theorem C8_max_score_selection (table : List (String × List (Nat × List String)))
    (q_v : String) (qs : List String) (fdist : List (String × Int)) (g : RNG)
    (qs1 : List String) (f2 : List (String × Int)) (g1 : RNG)
    (h : hardenQ table q_v qs fdist g = some (qs1, f2, g1)) :
    ∃ refs sim_scores maxv qualifier,
      alLookup table q_v = some refs ∧
      simScoresFor qs refs = some sim_scores ∧
      (∀ p ∈ sim_scores, p.2 ≤ maxv) ∧
      (∃ p ∈ sim_scores, p.2 = maxv) ∧
      qualifier ∈ maxKeysOf sim_scores ∧
      (∀ k, k ∈ maxKeysOf sim_scores ↔ (k, maxv) ∈ sim_scores) ∧
      (∀ k, maxKeysOf sim_scores = [k] → qualifier = k) ∧
      qs1 = sadd (qs.erase q_v) (q_v ++ Nat.repr qualifier) := by
  unfold hardenQ at h
  rcases hlk : alLookup table q_v with _ | refs
  · rw [hlk] at h; simp at h
  · rw [hlk] at h
    simp only at h
    rcases hsc : simScoresFor qs refs with _ | sim_scores
    · rw [hsc] at h; simp at h
    · rw [hsc] at h
      simp only at h
      split at h
      · simp at h
      · next hne =>
        rcases hpick : g.pick (maxKeysOf sim_scores) with _ | ⟨qualifier, g2⟩
        · rw [hpick] at h; simp at h
        · rw [hpick] at h
          simp only at h
          split at h
          · next hmem =>
            rcases hfd : alLookup fdist q_v with _ | c
            · rw [hfd] at h; simp at h
            · rw [hfd] at h
              simp only [Option.some.injEq, Prod.mk.injEq] at h
              obtain ⟨hqs1, _, _⟩ := h
              have hscne : sim_scores ≠ [] := by
                simpa [List.isEmpty_iff] using hne
              haveI instTot : IsTotal (Nat × ℚ) (fun a b : Nat × ℚ => b.2 ≤ a.2) :=
                ⟨fun a b => le_total b.2 a.2⟩
              haveI instTrans : IsTrans (Nat × ℚ) (fun a b : Nat × ℚ => b.2 ≤ a.2) :=
                ⟨fun a b c h1 h2 => le_trans h2 h1⟩
              have hperm := List.perm_insertionSort
                (fun a b : Nat × ℚ => b.2 ≤ a.2) sim_scores
              have hsorted := List.sorted_insertionSort
                (fun a b : Nat × ℚ => b.2 ≤ a.2) sim_scores
              rcases hsrt : List.insertionSort (fun a b : Nat × ℚ => b.2 ≤ a.2)
                  sim_scores with _ | ⟨top, tail⟩
              · rw [hsrt] at hperm
                exact absurd hperm.nil_eq.symm hscne
              · rw [hsrt] at hperm hsorted
                have hmax : ∀ p ∈ sim_scores, p.2 ≤ top.2 := by
                  intro p hp
                  have hp2 := hperm.symm.subset hp
                  rcases List.mem_cons.mp hp2 with hp3 | hp3
                  · rw [hp3]
                  · exact (List.sorted_cons.mp hsorted).1 p hp3
                have hmk : maxKeysOf sim_scores
                    = ((top :: tail).takeWhile (fun p => p.2 = top.2)).map Prod.fst := by
                  unfold maxKeysOf
                  rw [hsrt]
                  simp
                have hiff : ∀ k, k ∈ maxKeysOf sim_scores ↔ (k, top.2) ∈ sim_scores := by
                  intro k
                  rw [hmk]
                  constructor
                  · intro hk
                    obtain ⟨p, hp1, hp2⟩ := List.mem_map.mp hk
                    have hpred := List.mem_takeWhile_imp hp1
                    have hp3 : p.2 = top.2 := by simpa using hpred
                    have hp4 : p ∈ top :: tail :=
                      (List.takeWhile_sublist _).subset hp1
                    have hp5 : p = (k, top.2) := by
                      obtain ⟨ka, va⟩ := p
                      simp only at hp2 hp3
                      rw [hp2, hp3]
                    rw [← hp5]
                    exact hperm.subset hp4
                  · intro hk
                    have hk2 : (k, top.2) ∈ top :: tail := hperm.symm.subset hk
                    have := sorted_mem_takeWhile_eq_max hsorted
                      (fun p hp => hmax p (hperm.subset hp)) (k, top.2) hk2 rfl
                    exact List.mem_map.mpr ⟨(k, top.2), this, rfl⟩
                refine ⟨refs, sim_scores, top.2, qualifier, rfl, hsc, hmax,
                  ⟨top, hperm.subset (by simp), rfl⟩, pick_mem hpick, hiff, ?_, hqs1.symm⟩
                intro k hk
                rw [hk] at hpick
                exact pick_singleton hpick
          · simp at h

/-- Closed witness for C8: the worked example of the spec.  The record
`{"th","er","xy"}` is hardened against reference sets `{"he","er","re"}`
(index 4) and `{"in","qu","zx"}` (index 9) for `"th"`: the Dice scores are
`1/3` and `0`, index 4 is chosen, and the hardened set is `{"th4","er","xy"}`. -/
theorem C8_max_score_selection_witness :
    simScoresFor ["th", "er", "xy"] [(4, ["he", "er", "re"]), (9, ["in", "qu", "zx"])]
      = some [(4, Rat.divInt 2 6), (9, Rat.divInt 0 6)] ∧
    (hardenQ [("th", [(4, ["he", "er", "re"]), (9, ["in", "qu", "zx"])])] "th"
        ["th", "er", "xy"] [("th", 1)] (seededRNG 0)).map
        (fun p => (p.1, p.2.1))
      = some (["er", "xy", "th4"], [("th4", 1)]) ∧
    (∃ refs sim_scores maxv qualifier,
      alLookup [("th", [(4, ["he", "er", "re"]), (9, ["in", "qu", "zx"])])] "th"
        = some refs ∧
      simScoresFor ["th", "er", "xy"] refs = some sim_scores ∧
      (∀ p ∈ sim_scores, p.2 ≤ maxv) ∧
      (∃ p ∈ sim_scores, p.2 = maxv) ∧
      qualifier ∈ maxKeysOf sim_scores ∧
      (∀ k, k ∈ maxKeysOf sim_scores ↔ (k, maxv) ∈ sim_scores) ∧
      (∀ k, maxKeysOf sim_scores = [k] → qualifier = k) ∧
      ["er", "xy", "th4"] = sadd ((["th", "er", "xy"] : List String).erase "th")
        ("th" ++ Nat.repr qualifier)) :=
  ⟨by decide, by decide,
   C8_max_score_selection [("th", [(4, ["he", "er", "re"]), (9, ["in", "qu", "zx"])])]
     "th" ["th", "er", "xy"] [("th", 1)] (seededRNG 0)
     ["er", "xy", "th4"] [("th4", 1)] ⟨(seededRNG 0).stream, 1⟩ rfl⟩

/-! ### C1: coverage of vulnerable q-grams -/

theorem toDigitsCore_length_mono (b : Nat) :
    ∀ (fuel n : Nat) (ds : List Char),
      ds.length ≤ (Nat.toDigitsCore b fuel n ds).length := by
  intro fuel
  induction fuel with
  | zero => intro n ds; simp [Nat.toDigitsCore]
  | succ fuel ih =>
    intro n ds
    unfold Nat.toDigitsCore
    simp only []
    split
    · simp
    · exact le_trans (by simp) (ih (n / b) ((n % b).digitChar :: ds))

theorem toDigitsCore_length_succ (b : Nat) (fuel n : Nat) (ds : List Char) :
    ds.length + 1 ≤ (Nat.toDigitsCore b (fuel + 1) n ds).length := by
  unfold Nat.toDigitsCore
  simp only []
  split
  · simp
  · exact le_trans (by simp) (toDigitsCore_length_mono b fuel (n / b)
      ((n % b).digitChar :: ds))

theorem repr_length_pos (k : Nat) : 1 ≤ (Nat.repr k).length := by
  unfold Nat.repr Nat.toDigits
  have h := toDigitsCore_length_succ 10 k k []
  simpa [List.asString, String.length] using h

theorem qualified_token_not_vuln {vuln : List String} {n : Nat}
    (hlen : ∀ s ∈ vuln, s.length = n) {q : String} (hq : q ∈ vuln) (k : Nat) :
    q ++ Nat.repr k ∉ vuln := by
  intro hmem
  have h1 := hlen q hq
  have h2 := hlen _ hmem
  rw [String.length_append] at h2
  have h4 := repr_length_pos k
  omega

theorem hardenQ_qs_shape {table : List (String × List (Nat × List String))}
    {q_v : String} {qs : List String} {fdist : List (String × Int)} {g : RNG}
    {qs1 : List String} {f2 : List (String × Int)} {g1 : RNG}
    (h : hardenQ table q_v qs fdist g = some (qs1, f2, g1)) :
    q_v ∈ qs ∧ ∃ k : Nat, qs1 = sadd (qs.erase q_v) (q_v ++ Nat.repr k) := by
  unfold hardenQ at h
  rcases hlk : alLookup table q_v with _ | refs
  · rw [hlk] at h; simp at h
  · rw [hlk] at h
    simp only at h
    rcases hsc : simScoresFor qs refs with _ | sim_scores
    · rw [hsc] at h; simp at h
    · rw [hsc] at h
      simp only at h
      split at h
      · simp at h
      · rcases hpick : g.pick (maxKeysOf sim_scores) with _ | ⟨qualifier, g2⟩
        · rw [hpick] at h; simp at h
        · rw [hpick] at h
          simp only at h
          split at h
          · next hmem =>
            rcases hfd : alLookup fdist q_v with _ | c
            · rw [hfd] at h; simp at h
            · rw [hfd] at h
              simp only [Option.some.injEq, Prod.mk.injEq] at h
              exact ⟨hmem, qualifier, h.1.symm⟩
          · simp at h

theorem hardenRecord_coverage {vuln : List String}
    {table : List (String × List (Nat × List String))}
    (hvq : ∀ q ∈ vuln, ∀ k : Nat, q ++ Nat.repr k ∉ vuln) :
    ∀ {todo qs : List String} {fdist : List (String × Int)} {g : RNG}
      {qs1 : List String} {f1 : List (String × Int)} {g1 : RNG},
      hardenRecord table todo qs fdist g = some (qs1, f1, g1) →
      qs.Nodup → todo.Nodup → (∀ q ∈ todo, q ∈ vuln) →
      (∀ q ∈ todo, q ∈ qs) → (∀ x ∈ qs, x ∈ vuln → x ∈ todo) →
      qs1.Nodup ∧ (∀ x ∈ qs1, x ∉ vuln) ∧
      (∀ x ∈ qs, x ∉ vuln → x ∈ qs1) ∧
      (∀ q ∈ todo, ∃ k : Nat, q ++ Nat.repr k ∈ qs1) := by
  intro todo
  induction todo with
  | nil =>
    intro qs fdist g qs1 f1 g1 h hqsnd _ _ _ hcov
    unfold hardenRecord at h
    simp only [Option.some.injEq, Prod.mk.injEq] at h
    obtain ⟨hq, _, _⟩ := h
    subst hq
    refine ⟨hqsnd, ?_, fun x hx _ => hx, by simp⟩
    intro x hx hxv
    exact absurd (hcov x hx hxv) (by simp)
  | cons q_v rest ih =>
    intro qs fdist g qs1 f1 g1 h hqsnd htodond htodov htodoqs hcov
    unfold hardenRecord at h
    rcases hq : hardenQ table q_v qs fdist g with _ | ⟨⟨qs2, f3, g3⟩⟩
    · rw [hq] at h; simp at h
    · rw [hq] at h
      simp only at h
      obtain ⟨hq_mem, k, hqs2⟩ := hardenQ_qs_shape hq
      have hqv_vuln : q_v ∈ vuln := htodov q_v (by simp)
      have hrepl_nvuln : q_v ++ Nat.repr k ∉ vuln := hvq q_v hqv_vuln k
      have hqs2nd : qs2.Nodup := by
        rw [hqs2]
        exact sadd_nodup (hqsnd.erase q_v) _
      have hrestnd : rest.Nodup := (List.nodup_cons.mp htodond).2
      have hqv_notin_rest : q_v ∉ rest := (List.nodup_cons.mp htodond).1
      have hrestv : ∀ q ∈ rest, q ∈ vuln := fun q hq2 => htodov q (by simp [hq2])
      have hrestqs2 : ∀ q ∈ rest, q ∈ qs2 := by
        intro q hq2
        have hq_qs : q ∈ qs := htodoqs q (by simp [hq2])
        have hq_ne : q ≠ q_v := fun he => hqv_notin_rest (he ▸ hq2)
        rw [hqs2]
        exact mem_sadd_of_mem ((List.mem_erase_of_ne hq_ne).mpr hq_qs) _
      have hcov2 : ∀ x ∈ qs2, x ∈ vuln → x ∈ rest := by
        intro x hx hxv
        rw [hqs2] at hx
        rcases mem_sadd hx with hx2 | hx2
        · have hx3 := (hqsnd.mem_erase_iff.mp hx2)
          have := hcov x hx3.2 hxv
          rcases List.mem_cons.mp this with h5 | h5
          · exact absurd h5 hx3.1
          · exact h5
        · exact absurd hxv (hx2 ▸ hrepl_nvuln)
      obtain ⟨hnd1, hnv1, hpres1, hsub1⟩ :=
        ih h hqs2nd hrestnd hrestv hrestqs2 hcov2
      refine ⟨hnd1, hnv1, ?_, ?_⟩
      · intro x hx hxv
        have hx_ne : x ≠ q_v := fun he => hxv (he ▸ hqv_vuln)
        apply hpres1 x _ hxv
        rw [hqs2]
        exact mem_sadd_of_mem ((List.mem_erase_of_ne hx_ne).mpr hx) _
      · intro q hq2
        rcases List.mem_cons.mp hq2 with h5 | h5
        · subst h5
          refine ⟨k, hpres1 _ ?_ hrepl_nvuln⟩
          rw [hqs2]
          exact mem_sadd_self _ _
        · exact hsub1 q h5

theorem hardenAll_coverage {vuln : List String}
    {table : List (String × List (Nat × List String))}
    (hvq : ∀ q ∈ vuln, ∀ k : Nat, q ++ Nat.repr k ∉ vuln) :
    ∀ {data : List (String × List String)} {fdist : List (String × Int)} {g : RNG}
      {out : List (String × List String)} {f1 : List (String × Int)} {g1 : RNG},
      hardenAll vuln table data fdist g = some (out, f1, g1) →
      (∀ p ∈ data, (p.2 : List String).Nodup) →
      (∀ p ∈ out, ∀ x ∈ p.2, x ∉ vuln) ∧
      List.Forall₂ (fun (p q : String × List String) => q.1 = p.1 ∧
        ∀ x ∈ p.2, x ∈ vuln → ∃ k : Nat, x ++ Nat.repr k ∈ q.2) data out := by
  intro data
  induction data with
  | nil =>
    intro fdist g out f1 g1 h _
    unfold hardenAll at h
    simp only [Option.some.injEq, Prod.mk.injEq] at h
    obtain ⟨ho, _, _⟩ := h
    subst ho
    exact ⟨by simp, List.Forall₂.nil⟩
  | cons p rest ih =>
    intro fdist g out f1 g1 h hnd
    obtain ⟨rec_id, qs⟩ := p
    unfold hardenAll at h
    simp only [] at h
    by_cases hemp : (qs.filter (fun q => q ∈ vuln)).isEmpty = true
    · rw [if_pos hemp] at h
      rcases hrec : hardenAll vuln table rest fdist g with _ | ⟨⟨out2, f3, g3⟩⟩
      · rw [hrec] at h; simp at h
      · rw [hrec] at h
        simp only [Option.some.injEq, Prod.mk.injEq] at h
        obtain ⟨ho, _, _⟩ := h
        subst ho
        have hnovuln : ∀ x ∈ qs, x ∉ vuln := by
          intro x hx hxv
          have hfe : qs.filter (fun q => q ∈ vuln) = [] := by
            simpa [List.isEmpty_iff] using hemp
          have := List.filter_eq_nil_iff.mp hfe x hx
          simp [hxv] at this
        obtain ⟨hout1, hout2⟩ := ih hrec (fun p hp => hnd p (by simp [hp]))
        refine ⟨?_, List.Forall₂.cons ⟨rfl, ?_⟩ hout2⟩
        · intro p hp
          rcases List.mem_cons.mp hp with hp2 | hp2
          · subst hp2
            exact hnovuln
          · exact hout1 p hp2
        · intro x hx hxv
          exact absurd hxv (hnovuln x hx)
    · rw [if_neg hemp] at h
      rcases hq : hardenRecord table (qs.filter (fun q => q ∈ vuln)) qs fdist g
          with _ | ⟨⟨qs2, f3, g3⟩⟩
      · rw [hq] at h; simp at h
      · rw [hq] at h
        simp only at h
        rcases hrec : hardenAll vuln table rest f3 g3 with _ | ⟨⟨out2, f4, g4⟩⟩
        · rw [hrec] at h; simp at h
        · rw [hrec] at h
          simp only [Option.some.injEq, Prod.mk.injEq] at h
          obtain ⟨ho, _, _⟩ := h
          subst ho
          have hqsnd : qs.Nodup := by simpa using hnd (rec_id, qs) (by simp)
          obtain ⟨hnd2, hnv2, _, hsub2⟩ := hardenRecord_coverage hvq hq hqsnd
            (hqsnd.filter _)
            (fun q hq2 => by simpa using (List.mem_filter.mp hq2).2)
            (fun q hq2 => (List.mem_filter.mp hq2).1)
            (fun x hx hxv => List.mem_filter.mpr ⟨hx, by simpa using hxv⟩)
          obtain ⟨hout1, hout2⟩ := ih hrec (fun p hp => hnd p (by simp [hp]))
          refine ⟨?_, List.Forall₂.cons ⟨rfl, ?_⟩ hout2⟩
          · intro p hp
            rcases List.mem_cons.mp hp with hp2 | hp2
            · subst hp2
              exact hnv2
            · exact hout1 p hp2
          · intro x hx hxv
            exact hsub2 x (List.mem_filter.mpr ⟨hx, by simpa using hxv⟩)

/-- C1: for every sensitive database and every record in it, after
`harden_with_vah_ref_sets` returns, the q-gram set of the record contains no
element of the vulnerable q-gram set: each vulnerable q-gram that was present
has been removed and replaced by a qualified token (the q-gram concatenated
with a chosen index).  The q-grams of the vulnerable set all have the fixed
q-gram length, so a qualified token is never itself vulnerable. -/
theorem C1_coverage (v : VAH) (table : List (String × List (Nat × List String)))
    (data_dict : List (String × List String)) (q_gram_f_dist : List (String × Int))
    (out : List (String × List String)) (f : List (String × Int)) (n : Nat)
    (hlen : ∀ s ∈ v.vuln_q_grams, s.length = n)
    (hnd : ∀ p ∈ data_dict, (p.2 : List String).Nodup)
    (h : v.harden_with_vah_ref_sets table data_dict q_gram_f_dist = some (out, f)) :
    (∀ p ∈ out, ∀ x ∈ p.2, x ∉ v.vuln_q_grams) ∧
    List.Forall₂ (fun (p q : String × List String) => q.1 = p.1 ∧
      ∀ x ∈ p.2, x ∈ v.vuln_q_grams → ∃ k : Nat, x ++ Nat.repr k ∈ q.2)
      data_dict out := by
  unfold VAH.harden_with_vah_ref_sets at h
  rcases ha : hardenAll v.vuln_q_grams table data_dict q_gram_f_dist
      (seededRNG v.secret_seed) with _ | ⟨⟨out2, f2, g2⟩⟩
  · rw [ha] at h; simp at h
  · rw [ha] at h
    simp only [Option.some.injEq, Prod.mk.injEq] at h
    obtain ⟨ho, _⟩ := h
    subst ho
    exact hardenAll_coverage (fun q hq k => qualified_token_not_vuln hlen hq k) ha hnd

/-- Closed witness for C1 at a concrete completing run: the record
`["th", "er"]` loses `"th"` and gains `"th4"`. -/
theorem C1_coverage_witness :
    (∀ s ∈ (["th"] : List String), s.length = 2) ∧
    (∀ p ∈ [("s1", ["th", "er"]), ("s2", ["ab"])], (p.2 : List String).Nodup) ∧
    VAH.harden_with_vah_ref_sets ⟨7, ["th"], ["zz", "yy"], 2⟩
        [("th", [(4, ["he", "er"]), (9, ["in", "qu"])])]
        [("s1", ["th", "er"]), ("s2", ["ab"])] [("th", 1), ("er", 1), ("ab", 1)]
      = some ([("s1", ["er", "th4"]), ("s2", ["ab"])],
          [("er", 1), ("ab", 1), ("th4", 1)]) ∧
    (∀ p ∈ [("s1", ["er", "th4"]), ("s2", ["ab"])], ∀ x ∈ p.2,
      x ∉ (["th"] : List String)) ∧
    List.Forall₂ (fun (p q : String × List String) => q.1 = p.1 ∧
      ∀ x ∈ p.2, x ∈ (["th"] : List String) → ∃ k : Nat, x ++ Nat.repr k ∈ q.2)
      [("s1", ["th", "er"]), ("s2", ["ab"])] [("s1", ["er", "th4"]), ("s2", ["ab"])] :=
  have hmain := C1_coverage ⟨7, ["th"], ["zz", "yy"], 2⟩
    [("th", [(4, ["he", "er"]), (9, ["in", "qu"])])]
    [("s1", ["th", "er"]), ("s2", ["ab"])] [("th", 1), ("er", 1), ("ab", 1)]
    [("s1", ["er", "th4"]), ("s2", ["ab"])] [("er", 1), ("ab", 1), ("th4", 1)] 2
    (by decide) (by decide) (by decide)
  ⟨by decide, by decide, by decide, hmain.1, hmain.2⟩

/-! ### C10: vulnerable and non-vulnerable q-gram selection -/

/-- C10 is refuted by the code: `get_q_grams_to_be_hardened` sorts the
frequency map in ascending order and returns `sorted[vuln_q_gram_count:]` as
the non-vulnerable pool, which drops the `N` *least* frequent q-grams and
keeps the most frequent ones.  At frequencies aa↦1, bb↦2, cc↦3 with `N = 1`
the vulnerable list is `["cc"]` but the non-vulnerable pool is
`["bb", "cc"]` — it contains the vulnerable q-gram `"cc"` instead of being
the disjoint remainder `["aa", "bb"]`. -/
theorem C10_non_vuln_pool_overlaps :
    get_q_grams_to_be_hardened [("aa", 1), ("bb", 2), ("cc", 3)] 1
      = (["cc"], ["bb", "cc"]) ∧
    "cc" ∈ (get_q_grams_to_be_hardened [("aa", 1), ("bb", 2), ("cc", 3)] 1).1 ∧
    "cc" ∈ (get_q_grams_to_be_hardened [("aa", 1), ("bb", 2), ("cc", 3)] 1).2 ∧
    "cc" ∉ (["aa", "bb"] : List String) := by
  decide

end Vah
